import Mathlib

/-!
Verification development for the substring-search extension (`instr.c`).

The haystack and needle buffers are modelled as `List Nat` (byte values for
the raw/UTF-8 engines, 16-bit unit values for the UTF-16 engines).  Pointers
become offsets into the list; the `vsize` length counters become `Nat`s.
Every C loop is embedded as a structurally recursive function on an explicit
fuel argument returning `Option Int`; `none` means the fuel ran out before
the loop returned.  The four engines whose loops consume at least one unit
of input per iteration are given an internal fuel that provably suffices;
`rinstr_utf8` and `rinstr_utf16`, whose backward loops can fail to make
progress, take the fuel as an explicit argument.
-/

namespace SqliteInstr

/-- `memcmp(haystack+o, needle, needle.length) == 0`, for byte buffers.
Out-of-range reads make the comparison fail (all real calls are in range). -/
def memEq (h : List Nat) (o : Nat) (n : List Nat) : Bool :=
  ((h.drop o).take n.length) == n

/-- The index sequence `limit, limit-1, ..., 1` of the `rbmh_setup` loop. -/
def downFrom : Nat → List Nat
  | 0 => []
  | k+1 => (k+1) :: downFrom k

/-- `fbmh_setup` from the source: a 256-entry Horspool table, modelled as a
function from byte value to skip.  Every entry starts at `needle.length`;
the loop `for ix in [0, limit)` sets `skips[needle[ix]] = limit - ix`; with a
non-zero `mask` every entry is then rounded as `(v + mask) & ~mask` in 32-bit
arithmetic. -/
def fbmh_setup (needle : List Nat) (mask : Nat) : Nat → Nat :=
  let m := needle.length
  let limit := m - 1
  let base := (List.range limit).foldl
    (fun t ix => Function.update t (needle.getD ix 0) (limit - ix)) (fun _ => m)
  if mask ≠ 0 then (fun c => (base c + mask) % 2^32 &&& (2^32 - 1 - mask)) else base

/-- `rbmh_setup` from the source: entries start at `needle.length`; the loop
`for ix = limit; ix > 0; ix--` sets `skips[needle[ix]] = ix`. -/
def rbmh_setup (needle : List Nat) (mask : Nat) : Nat → Nat :=
  let m := needle.length
  let limit := m - 1
  let base := (downFrom limit).foldl
    (fun t ix => Function.update t (needle.getD ix 0) ix) (fun _ => m)
  if mask ≠ 0 then (fun c => (base c + mask) % 2^32 &&& (2^32 - 1 - mask)) else base

/-- `UTF8_ADVANCE`: decode one codepoint forward at byte offset `o` with `ss`
bytes remaining.  Returns the codepoint and the number of bytes consumed, or
`none` for the `cp = -1` branch (in which the C macro leaves `ptr`/`size`
untouched). -/
def UTF8_ADVANCE (h : List Nat) (o ss : Nat) : Option (Nat × Nat) :=
  let c0 := h.getD o 0
  let c1 := h.getD (o+1) 0
  let c2 := h.getD (o+2) 0
  let c3 := h.getD (o+3) 0
  let cp3 := ((c0 <<< 12) &&& 0xF000) ||| ((c1 <<< 6) &&& 0xFC0) ||| (c2 &&& 0x3F)
  let cp4 := ((c0 <<< 18) &&& 0x1C0000) ||| ((c1 <<< 12) &&& 0x3F000) |||
             ((c2 <<< 6) &&& 0xFC0) ||| (c3 &&& 0x3F)
  if 1 ≤ ss ∧ c0 < 0x80 then some (c0, 1)
  else if 2 ≤ ss ∧ 0xC2 ≤ c0 ∧ c0 < 0xE0 ∧ 0x80 ≤ c1 ∧ c1 < 0xC0 then
    some (((c0 <<< 6) &&& 0x7C0) ||| (c1 &&& 0x3F), 2)
  else if 3 ≤ ss ∧ 0xE0 ≤ c0 ∧ c0 < 0xF0 ∧ 0x80 ≤ c1 ∧ c1 < 0xC0 ∧
          0x80 ≤ c2 ∧ c2 < 0xC0 ∧ 0x800 ≤ cp3 ∧ (cp3 < 0xD800 ∨ 0xE000 ≤ cp3) then
    some (cp3, 3)
  else if 4 ≤ ss ∧ 0xF0 ≤ c0 ∧ c0 < 0xF5 ∧ 0x80 ≤ c1 ∧ c1 < 0xC0 ∧
          0x80 ≤ c2 ∧ c2 < 0xC0 ∧ 0x80 ≤ c3 ∧ c3 < 0xC0 ∧
          0x10000 ≤ cp4 ∧ cp4 < 0x110000 then
    some (cp4, 4)
  else none

/-- `UTF8_RETREAT`: decode one codepoint backward ending at byte offset `o`
with `ss` bytes before the cursor.  Returns the codepoint and number of bytes
stepped back, or `none` (C leaves `ptr`/`size` untouched then).  The 3- and
4-byte branches transcribe the source conditions verbatim, including the
`0xC2 <= c2 && c2 < 0xE0` (and `c3`) tests that the source applies to the
continuation bytes. -/
def UTF8_RETREAT (h : List Nat) (o ss : Nat) : Option (Nat × Nat) :=
  let c1 := h.getD (o-1) 0
  let c2 := h.getD (o-2) 0
  let c3 := h.getD (o-3) 0
  let c4 := h.getD (o-4) 0
  let cp3 := ((c3 <<< 12) &&& 0xF000) ||| ((c2 <<< 6) &&& 0xFC0) ||| (c1 &&& 0x3F)
  let cp4 := ((c4 <<< 18) &&& 0x1C0000) ||| ((c3 <<< 12) &&& 0x3F000) |||
             ((c2 <<< 6) &&& 0xFC0) ||| (c1 &&& 0x3F)
  if 1 ≤ ss ∧ c1 < 0x80 then some (c1, 1)
  else if 2 ≤ ss ∧ 0x80 ≤ c1 ∧ c1 < 0xC0 ∧ 0xC2 ≤ c2 ∧ c2 < 0xE0 then
    some (((c2 <<< 6) &&& 0x7C0) ||| (c1 &&& 0x3F), 2)
  else if 3 ≤ ss ∧ 0x80 ≤ c1 ∧ c1 < 0xC0 ∧ 0xC2 ≤ c2 ∧ c2 < 0xE0 ∧
          0xE0 ≤ c3 ∧ c3 < 0xF0 ∧ 0x800 ≤ cp3 ∧ (cp3 < 0xD800 ∨ 0xE000 ≤ cp3) then
    some (cp3, 3)
  else if 4 ≤ ss ∧ 0x80 ≤ c1 ∧ c1 < 0xC0 ∧ 0xC2 ≤ c2 ∧ c2 < 0xE0 ∧
          0xC2 ≤ c3 ∧ c3 < 0xE0 ∧ 0xF0 ≤ c4 ∧ c4 < 0xF5 ∧
          0x10000 ≤ cp4 ∧ cp4 < 0x110000 then
    some (cp4, 4)
  else none

/-- `UTF16_ADVANCE` over a list of 16-bit units: returns the codepoint and
the number of units consumed (the byte size decreases by twice that). -/
def UTF16_ADVANCE (u : List Nat) (o ss : Nat) : Option (Nat × Nat) :=
  let c0 := u.getD o 0
  let c1 := u.getD (o+1) 0
  if 2 ≤ ss ∧ (c0 < 0xD800 ∨ 0xE000 ≤ c0) then some (c0, 1)
  else if 4 ≤ ss ∧ 0xD800 ≤ c0 ∧ c0 < 0xDC00 ∧ 0xDC00 ≤ c1 ∧ c1 < 0xE000 then
    some ((((c0 + 0x40) <<< 10) &&& 0x1FFC00) ||| (c1 &&& 0x3FF), 2)
  else none

/-- `UTF16_RETREAT`: returns the codepoint together with the NEW unit offset
and NEW byte count.  In the surrogate-pair branch the source executes
`ptr += 2; size -= 4;`, so the new offset is `o + 2`. -/
def UTF16_RETREAT (u : List Nat) (o ss : Nat) : Option (Nat × Nat × Nat) :=
  let c1 := u.getD (o-1) 0
  let c2 := u.getD (o-2) 0
  if 2 ≤ ss ∧ (c1 < 0xD800 ∨ 0xE000 ≤ c1) then some (c1, o - 1, ss - 2)
  else if 4 ≤ ss ∧ 0xDC00 ≤ c1 ∧ c1 < 0xE000 ∧ 0xD800 ≤ c2 ∧ c2 < 0xDC00 then
    some ((((c2 + 0x40) <<< 10) &&& 0x1FFC00) ||| (c1 &&& 0x3FF), o + 2, ss - 4)
  else none

/-! ### instr_blob -/

/-- Main loop of `instr_blob` for needles of length > 1.  State: byte offset
`o`, remaining size `ss` (invariantly `h.length - o`), 1-based position
`found`.  The skip never exceeds `needlesize ≤ stacksize`, so the truncated
`ss - skip` agrees with the C unsigned subtraction on reachable states. -/
def instrBlobLoopM (h n : List Nat) (skips : Nat → Nat) :
    Nat → Nat → Nat → Int → Option Int
  | 0, _, _, _ => none
  | fuel+1, o, ss, found =>
    if n.length ≤ ss then
      if memEq h o n then some found
      else
        let skip := skips (h.getD (o + n.length - 1) 0)
        instrBlobLoopM h n skips fuel (o + skip) (ss - skip) (found + skip)
    else some 0

/-- Single-byte-needle loop of `instr_blob`. -/
def instrBlobLoop1 (h : List Nat) (first : Nat) :
    Nat → Nat → Nat → Int → Option Int
  | 0, _, _, _ => none
  | fuel+1, o, ss, found =>
    if 0 < ss then
      if h.getD o 0 == first then some found
      else instrBlobLoop1 h first fuel (o+1) (ss-1) (found+1)
    else some 0

/-- Body of `instr_blob` after the start adjustment: the
`needlesize > stacksize` / `needlesize <= 0` checks and loop dispatch. -/
def instrBlobGo (h n : List Nat) (found : Int) (o ss : Nat) : Option Int :=
  if ss < n.length then some 0
  else if n.length ≤ 0 then some found
  else if 1 < n.length then
    instrBlobLoopM h n (fbmh_setup n 0) (ss+1) o ss found
  else instrBlobLoop1 h (n.getD 0 0) (ss+1) o ss found

/-- `instr_blob`: forward raw search.  `start` is the 1-based start position
(`sqlite3_int64`). -/
def instr_blob (h n : List Nat) (start : Int) : Option Int :=
  let len := h.length
  if 1 < start then
    if (len : Int) < start - 1 then some 0
    else instrBlobGo h n start (start - 1).toNat (len - (start - 1).toNat)
  else instrBlobGo h n 1 0 len

/-! ### rinstr_blob -/

/-- Main loop of `rinstr_blob` for needles of length > 1.  State: byte offset
`o` of the candidate window, bytes available to the left `ss` (invariantly
`= o`), and position `found` (invariantly `= o + 1`). -/
def rinstrBlobLoopM (h n : List Nat) (skips : Nat → Nat) :
    Nat → Nat → Nat → Int → Option Int
  | 0, _, _, _ => none
  | fuel+1, o, ss, found =>
    if memEq h o n then some found
    else
      let skip := skips (h.getD o 0)
      if ss < skip then some 0
      else rinstrBlobLoopM h n skips fuel (o - skip) (ss - skip) (found - skip)

/-- Single-byte-needle loop of `rinstr_blob`. -/
def rinstrBlobLoop1 (h : List Nat) (first : Nat) :
    Nat → Nat → Nat → Int → Option Int
  | 0, _, _, _ => none
  | fuel+1, o, ss, found =>
    if h.getD o 0 == first then some found
    else if ss ≤ 0 then some 0
    else rinstrBlobLoop1 h first fuel (o-1) (ss-1) (found-1)

/-- Body of `rinstr_blob` after the clamp: empty-needle check and loop
dispatch. -/
def rinstrBlobGo (h n : List Nat) (found : Int) (o ss : Nat) : Option Int :=
  if n.length ≤ 0 then some found
  else if 1 < n.length then
    rinstrBlobLoopM h n (rbmh_setup n 0) (ss+1) o ss found
  else rinstrBlobLoop1 h (n.getD 0 0) (ss+1) o ss found

/-- The start clamp of `rinstr_blob`:
`if (start-1 > (sqlite3_int64)(stacksize-needlesize)) start = stacksize-needlesize+1;`. -/
def rinstrClamp (len nl : Nat) (start : Int) : Int :=
  if ((len - nl : Nat) : Int) < start - 1 then ((len - nl : Nat) : Int) + 1 else start

/-- `rinstr_blob`: backward raw search. -/
def rinstr_blob (h n : List Nat) (start : Int) : Option Int :=
  let len := h.length
  if start ≤ 0 then some 0
  else if len < n.length then some 0
  else if 1 < start then
    rinstrBlobGo h n (rinstrClamp len n.length start)
      (rinstrClamp len n.length start - 1).toNat (rinstrClamp len n.length start - 1).toNat
  else rinstrBlobGo h n 1 0 0

/-- Default `start` of the 2-argument `rinstr` (`0x7FFFFFFFFFFFFFFFLL`). -/
def RINSTR_DEFAULT_START : Int := 0x7FFFFFFFFFFFFFFF

/-! ### instr_utf8 -/

/-- The `while (found < start && stacksize > needlesize)` positioning phase of
`instr_utf8`.  Returns `Sum.inl r` for an early `return r` (malformed input)
or `Sum.inr (o, ss, found)` for the state at loop exit. -/
def instrUtf8Phase (h : List Nat) (nl : Nat) (start : Int) :
    Nat → Nat → Nat → Int → Option (Sum Int (Nat × Nat × Int))
  | 0, _, _, _ => none
  | fuel+1, o, ss, found =>
    if found < start ∧ nl < ss then
      match UTF8_ADVANCE h o ss with
      | none => some (Sum.inl (-1))
      | some (_, k) => instrUtf8Phase h nl start fuel (o+k) (ss-k) (found+1)
    else some (Sum.inr (o, ss, found))

/-- Main loop of `instr_utf8` for needles longer than one byte; `next` is the
validated-floor byte offset. -/
def instrUtf8LoopM (h n : List Nat) (skips : Nat → Nat) :
    Nat → Nat → Nat → Int → Nat → Option Int
  | 0, _, _, _, _ => none
  | fuel+1, o, ss, found, next =>
    if n.length ≤ ss then
      if next ≤ o then
        if memEq h o n then some found
        else
          let skip := skips (h.getD (o + n.length - 1) 0)
          if ss - skip < n.length then some 0
          else
            match UTF8_ADVANCE h o ss with
            | none => some (-1)
            | some (_, k) => instrUtf8LoopM h n skips fuel (o+k) (ss-k) (found+1) (o+skip)
      else
        match UTF8_ADVANCE h o ss with
        | none => some (-1)
        | some (_, k) => instrUtf8LoopM h n skips fuel (o+k) (ss-k) (found+1) next
    else some 0

/-- Single-byte-needle loop of `instr_utf8`. -/
def instrUtf8Loop1 (h : List Nat) (first : Nat) :
    Nat → Nat → Nat → Int → Option Int
  | 0, _, _, _ => none
  | fuel+1, o, ss, found =>
    if 0 < ss then
      if h.getD o 0 == first then some found
      else
        match UTF8_ADVANCE h o ss with
        | none => some (-1)
        | some (_, k) => instrUtf8Loop1 h first fuel (o+k) (ss-k) (found+1)
    else some 0

/-- `instr_utf8`: forward UTF-8 search. -/
def instr_utf8 (h n : List Nat) (start : Int) : Option Int :=
  let len := h.length
  if len < n.length then some 0
  else
    match instrUtf8Phase h n.length start (len+2) 0 len 1 with
    | none => none
    | some (Sum.inl r) => some r
    | some (Sum.inr (o, ss, found)) =>
      if found < start then some 0
      else if n.length ≤ 0 then some found
      else if 1 < n.length then
        instrUtf8LoopM h n (fbmh_setup n 0) (len+2) o ss found o
      else instrUtf8Loop1 h (n.getD 0 0) (len+2) o ss found

/-! ### instr_utf16 -/

/-- Low byte of a 16-bit unit (little-endian layout of the 16-bit buffers;
only the value, never the order, reaches a search result). -/
def u16lo (w : Nat) : Nat := w % 256

/-- High byte of a 16-bit unit. -/
def u16hi (w : Nat) : Nat := w / 256 % 256

/-- The byte image of a 16-bit-unit buffer (little-endian). -/
def u16bytes (u : List Nat) : List Nat :=
  u.foldr (fun w acc => u16lo w :: u16hi w :: acc) []

/-- Byte `i` of the byte image of `u`. -/
def u16byteAt (u : List Nat) (i : Nat) : Nat :=
  if i % 2 = 0 then u16lo (u.getD (i/2) 0) else u16hi (u.getD (i/2) 0)

/-- `memcmp` of `needlesize` bytes for the UTF-16 engines: equality of the
unit lists (byte equality of 16-bit values coincides with unit equality). -/
def memEqU (u : List Nat) (o : Nat) (nu : List Nat) : Bool :=
  ((u.drop o).take nu.length) == nu

/-- Positioning phase of `instr_utf16`; `o` in units, `ss` in bytes. -/
def instrUtf16Phase (u : List Nat) (nlB : Nat) (start : Int) :
    Nat → Nat → Nat → Int → Option (Sum Int (Nat × Nat × Int))
  | 0, _, _, _ => none
  | fuel+1, o, ss, found =>
    if found < start ∧ nlB < ss then
      match UTF16_ADVANCE u o ss with
      | none => some (Sum.inl (-1))
      | some (_, du) => instrUtf16Phase u nlB start fuel (o+du) (ss-2*du) (found+1)
    else some (Sum.inr (o, ss, found))

/-- Main loop of `instr_utf16` for needles longer than one unit.  The skip
table is indexed with byte `needlesize-1` of the current window
(`((unsigned char const *)haystack)[needlesize-1]`), i.e. byte
`2*o + nlB - 1`; the floor moves by `skip/2` units. -/
def instrUtf16LoopM (u nu : List Nat) (skips : Nat → Nat) :
    Nat → Nat → Nat → Int → Nat → Option Int
  | 0, _, _, _, _ => none
  | fuel+1, o, ss, found, next =>
    if 2 * nu.length ≤ ss then
      if next ≤ o then
        if memEqU u o nu then some found
        else
          let skip := skips (u16byteAt u (2*o + 2*nu.length - 1))
          if ss - skip < 2 * nu.length then some 0
          else
            match UTF16_ADVANCE u o ss with
            | none => some (-1)
            | some (_, du) =>
              instrUtf16LoopM u nu skips fuel (o+du) (ss-2*du) (found+1) (o + skip/2)
      else
        match UTF16_ADVANCE u o ss with
        | none => some (-1)
        | some (_, du) => instrUtf16LoopM u nu skips fuel (o+du) (ss-2*du) (found+1) next
    else some 0

/-- Single-unit-needle loop of `instr_utf16`. -/
def instrUtf16Loop1 (u : List Nat) (first : Nat) :
    Nat → Nat → Nat → Int → Option Int
  | 0, _, _, _ => none
  | fuel+1, o, ss, found =>
    if 0 < ss then
      if u.getD o 0 == first then some found
      else
        match UTF16_ADVANCE u o ss with
        | none => some (-1)
        | some (_, du) => instrUtf16Loop1 u first fuel (o+du) (ss-2*du) (found+1)
    else some 0

/-- `instr_utf16`: forward UTF-16 search over unit lists; sizes in bytes are
twice the unit counts (the adapter masks both byte counts to even). -/
def instr_utf16 (u nu : List Nat) (start : Int) : Option Int :=
  let len := u.length
  let nlB := 2 * nu.length
  if 2 * len < nlB then some 0
  else
    match instrUtf16Phase u nlB start (len+2) 0 (2*len) 1 with
    | none => none
    | some (Sum.inl r) => some r
    | some (Sum.inr (o, ss, found)) =>
      if found < start then some 0
      else if nlB ≤ 0 then some found
      else if 2 < nlB then
        instrUtf16LoopM u nu (fbmh_setup (u16bytes nu) 1) (len+2) o ss found o
      else instrUtf16Loop1 u (nu.getD 0 0) (len+2) o ss found

/-! ### rinstr_utf8 -/

/-- Positioning phase of `rinstr_utf8`: advances while `found < start` and
`stacksize > needlesize`; if an advance would leave `stacksize < needlesize`
the old cursor is restored and the loop breaks. -/
def rinstrUtf8Phase (h : List Nat) (nl : Nat) (start : Int) :
    Nat → Nat → Nat → Int → Option (Sum Int (Nat × Nat × Int))
  | 0, _, _, _ => none
  | fuel+1, o, ss, found =>
    if found < start ∧ nl < ss then
      match UTF8_ADVANCE h o ss with
      | none => some (Sum.inl (-1))
      | some (_, k) =>
        if ss - k < nl then some (Sum.inr (o, ss, found))
        else rinstrUtf8Phase h nl start fuel (o+k) (ss-k) (found+1)
    else some (Sum.inr (o, ss, found))

/-- Main backward loop of `rinstr_utf8` for needles longer than one byte.
When `UTF8_RETREAT` yields the invalid outcome the source ignores the
codepoint and leaves the cursor untouched, so the recursive call keeps `o`
and `ss` and only decrements `found`. -/
def rinstrUtf8LoopM (h n : List Nat) (skips : Nat → Nat) :
    Nat → Nat → Nat → Int → Nat → Option Int
  | 0, _, _, _, _ => none
  | fuel+1, o, ss, found, next =>
    if o ≤ next then
      if memEq h o n then some found
      else
        let skip := skips (h.getD o 0)
        if ss < skip then some 0
        else if ss ≤ 0 then some 0
        else
          match UTF8_RETREAT h o ss with
          | some (_, k) => rinstrUtf8LoopM h n skips fuel (o-k) (ss-k) (found-1) (o - skip)
          | none => rinstrUtf8LoopM h n skips fuel o ss (found-1) (o - skip)
    else
      if ss ≤ 0 then some 0
      else
        match UTF8_RETREAT h o ss with
        | some (_, k) => rinstrUtf8LoopM h n skips fuel (o-k) (ss-k) (found-1) next
        | none => rinstrUtf8LoopM h n skips fuel o ss (found-1) next

/-- Single-byte-needle backward loop of `rinstr_utf8`. -/
def rinstrUtf8Loop1 (h : List Nat) (first : Nat) :
    Nat → Nat → Nat → Int → Option Int
  | 0, _, _, _ => none
  | fuel+1, o, ss, found =>
    if h.getD o 0 == first then some found
    else if ss ≤ 0 then some 0
    else
      match UTF8_RETREAT h o ss with
      | some (_, k) => rinstrUtf8Loop1 h first fuel (o-k) (ss-k) (found-1)
      | none => rinstrUtf8Loop1 h first fuel o ss (found-1)

/-- `rinstr_utf8`: backward UTF-8 search.  The fuel is explicit because the
backward loops do not always make progress. -/
def rinstr_utf8 (fuel : Nat) (h n : List Nat) (start : Int) : Option Int :=
  if start ≤ 0 then some 0
  else if h.length < n.length then some 0
  else
    match rinstrUtf8Phase h n.length start fuel 0 h.length 1 with
    | none => none
    | some (Sum.inl r) => some r
    | some (Sum.inr (o, _, found)) =>
      if n.length ≤ 0 then some found
      else if 1 < n.length then
        rinstrUtf8LoopM h n (rbmh_setup n 0) fuel o o found o
      else rinstrUtf8Loop1 h (n.getD 0 0) fuel o o found

/-! ### rinstr_utf16 -/

/-- Positioning phase of `rinstr_utf16` (`o` in units, `ss` in bytes). -/
def rinstrUtf16Phase (u : List Nat) (nlB : Nat) (start : Int) :
    Nat → Nat → Nat → Int → Option (Sum Int (Nat × Nat × Int))
  | 0, _, _, _ => none
  | fuel+1, o, ss, found =>
    if found < start ∧ nlB < ss then
      match UTF16_ADVANCE u o ss with
      | none => some (Sum.inl (-1))
      | some (_, du) =>
        if ss - 2*du < nlB then some (Sum.inr (o, ss, found))
        else rinstrUtf16Phase u nlB start fuel (o+du) (ss-2*du) (found+1)
    else some (Sum.inr (o, ss, found))

/-- Main backward loop of `rinstr_utf16`; the skip key is byte 0 of the
current window (`((unsigned char const *)haystack)[0]`), the floor moves by
`skip/2` units, and `UTF16_RETREAT` yields the new cursor directly (including
the `ptr += 2` of its surrogate branch). -/
def rinstrUtf16LoopM (u nu : List Nat) (skips : Nat → Nat) :
    Nat → Nat → Nat → Int → Nat → Option Int
  | 0, _, _, _, _ => none
  | fuel+1, o, ss, found, next =>
    if o ≤ next then
      if memEqU u o nu then some found
      else
        let skip := skips (u16byteAt u (2*o))
        if ss < skip then some 0
        else if ss ≤ 0 then some 0
        else
          match UTF16_RETREAT u o ss with
          | some (_, o2, ss2) => rinstrUtf16LoopM u nu skips fuel o2 ss2 (found-1) (o - skip/2)
          | none => rinstrUtf16LoopM u nu skips fuel o ss (found-1) (o - skip/2)
    else
      if ss ≤ 0 then some 0
      else
        match UTF16_RETREAT u o ss with
        | some (_, o2, ss2) => rinstrUtf16LoopM u nu skips fuel o2 ss2 (found-1) next
        | none => rinstrUtf16LoopM u nu skips fuel o ss (found-1) next

/-- Single-unit-needle backward loop of `rinstr_utf16`. -/
def rinstrUtf16Loop1 (u : List Nat) (first : Nat) :
    Nat → Nat → Nat → Int → Option Int
  | 0, _, _, _ => none
  | fuel+1, o, ss, found =>
    if u.getD o 0 == first then some found
    else if ss ≤ 0 then some 0
    else
      match UTF16_RETREAT u o ss with
      | some (_, o2, ss2) => rinstrUtf16Loop1 u first fuel o2 ss2 (found-1)
      | none => rinstrUtf16Loop1 u first fuel o ss (found-1)

/-- `rinstr_utf16`: backward UTF-16 search with explicit fuel. -/
def rinstr_utf16 (fuel : Nat) (u nu : List Nat) (start : Int) : Option Int :=
  let nlB := 2 * nu.length
  if start ≤ 0 then some 0
  else if 2 * u.length < nlB then some 0
  else
    match rinstrUtf16Phase u nlB start fuel 0 (2 * u.length) 1 with
    | none => none
    | some (Sum.inl r) => some r
    | some (Sum.inr (o, _, found)) =>
      if nlB ≤ 0 then some found
      else if 2 < nlB then
        rinstrUtf16LoopM u nu (fbmh_setup (u16bytes nu) 1) fuel o (2*o) found o
      else rinstrUtf16Loop1 u (nu.getD 0 0) fuel o (2*o) found

/-! ### Argument adapter (instr_func / rinstr_func, UTF-8 registration) -/

/-- The SQLite value kinds the adapter claims depend on.  Integer and float
arguments (which SQLite would render as text) play no role in any claim and
are not modelled. -/
inductive SqlValue where
  | vnull : SqlValue
  | vblob : List Nat → SqlValue
  | vtext : List Nat → SqlValue
deriving DecidableEq

/-- `sqlite3_value_type`, restricted to the modelled kinds. -/
inductive SqlType where
  | tnull | tblob | ttext
deriving DecidableEq

def valueType : SqlValue → SqlType
  | .vnull => .tnull
  | .vblob _ => .tblob
  | .vtext _ => .ttext

/-- `sqlite3_value_blob` / `sqlite3_value_text` byte image.  Modelled from
SQLite's documented coercions between the modelled kinds: a blob's bytes are
returned unchanged when read as text and vice versa. -/
def valueBytes : SqlValue → List Nat
  | .vnull => []
  | .vblob b => b
  | .vtext b => b

/-- `sqlite3_value_int64`.  Modelled from SQLite's documented coercion: text
and blob values without a numeric prefix convert to 0; no claim depends on
this value. -/
def valueInt64 : SqlValue → Int
  | _ => 0

/-- Result protocol of the adapter: no result (null propagation), an integer
result, or one of the error conditions. -/
inductive AdapterResult where
  | rNone : AdapterResult
  | rInt : Int → AdapterResult
  | rErrConfused : AdapterResult
  | rErrMalformed : AdapterResult
deriving DecidableEq

/-- `if (result < 0) error(malformed) else int64(result)`. -/
def mapResult (r : Int) : AdapterResult :=
  if r < 0 then AdapterResult.rErrMalformed else AdapterResult.rInt r

/-- `instr_func` under the UTF-8 registration (`user_data = malformed_8`).
Allocation failure is not modelled (accessors are total), so the `nomem`
paths vanish.  Since `malformed == malformed_8` in this registration, the
`else goto confused` arm of the type dispatch is unreachable and every
non-BLOB/BLOB combination takes the UTF-8 text path. -/
def instrFunc8 (args : List SqlValue) : Option AdapterResult :=
  if args.length < 2 then some AdapterResult.rErrConfused
  else
    let a0 := args.getD 0 SqlValue.vnull
    let a1 := args.getD 1 SqlValue.vnull
    if valueType a0 = SqlType.tnull then some AdapterResult.rNone
    else if valueType a1 = SqlType.tnull then some AdapterResult.rNone
    else if 3 ≤ args.length ∧ valueType (args.getD 2 SqlValue.vnull) = SqlType.tnull then
      some AdapterResult.rNone
    else
      let start : Int := if 3 ≤ args.length then valueInt64 (args.getD 2 SqlValue.vnull) else 1
      if valueType a0 = SqlType.tblob ∧ valueType a1 = SqlType.tblob then
        (instr_blob (valueBytes a0) (valueBytes a1) start).map mapResult
      else
        (instr_utf8 (valueBytes a0) (valueBytes a1) start).map mapResult

/-- `rinstr_func` under the UTF-8 registration; only the default `start`
differs. -/
def rinstrFunc8 (fuel : Nat) (args : List SqlValue) : Option AdapterResult :=
  if args.length < 2 then some AdapterResult.rErrConfused
  else
    let a0 := args.getD 0 SqlValue.vnull
    let a1 := args.getD 1 SqlValue.vnull
    if valueType a0 = SqlType.tnull then some AdapterResult.rNone
    else if valueType a1 = SqlType.tnull then some AdapterResult.rNone
    else if 3 ≤ args.length ∧ valueType (args.getD 2 SqlValue.vnull) = SqlType.tnull then
      some AdapterResult.rNone
    else
      let start : Int :=
        if 3 ≤ args.length then valueInt64 (args.getD 2 SqlValue.vnull)
        else RINSTR_DEFAULT_START
      if valueType a0 = SqlType.tblob ∧ valueType a1 = SqlType.tblob then
        (rinstr_blob (valueBytes a0) (valueBytes a1) start).map mapResult
      else
        (rinstr_utf8 fuel (valueBytes a0) (valueBytes a1) start).map mapResult

/-! ### Reference definitions (modelled from the spec) -/

/-- Modelled from the spec: the inner scan of the naive double-loop forward
reference search, trying every byte offset from `o` upward. -/
def naiveFwdFrom (h n : List Nat) : Nat → Nat → Option Int
  | 0, _ => none
  | fuel+1, o =>
    if o + n.length ≤ h.length then
      if memEq h o n then some ((o : Int) + 1)
      else naiveFwdFrom h n fuel (o+1)
    else some 0

/-- Modelled from the spec: naive reference forward search, first occurrence
as a 1-based position, `0` if none. -/
def naiveInstr (h n : List Nat) : Option Int :=
  naiveFwdFrom h n (h.length + 2) 0

/-- Modelled from the spec: the inner scan of the naive backward reference
search, trying offsets from `o` downward. -/
def naiveRevFrom (h n : List Nat) : Nat → Nat → Option Int
  | 0, _ => none
  | fuel+1, o =>
    if memEq h o n then some ((o : Int) + 1)
    else if o = 0 then some 0
    else naiveRevFrom h n fuel (o-1)

/-- Modelled from the spec: naive reference backward search, last occurrence
as a 1-based position, `0` if none. -/
def naiveRinstr (h n : List Nat) : Option Int :=
  if n.length ≤ h.length then naiveRevFrom h n (h.length + 2) (h.length - n.length)
  else some 0

/-- Sequential UTF-8 decode from byte offset `o`: `some none` when the rest
of the buffer decodes cleanly, `some (some m)` when decoding first fails at
byte offset `m`, `none` when the fuel ran out. -/
def utf8FailFrom (h : List Nat) : Nat → Nat → Option (Option Nat)
  | 0, _ => none
  | fuel+1, o =>
    if h.length ≤ o then some none
    else
      match UTF8_ADVANCE h o (h.length - o) with
      | some (_, k) => utf8FailFrom h fuel (o+k)
      | none => some (some o)

/-- Number of codepoints in a sequential UTF-8 decode from byte offset `o`;
`none` if the decode fails or the fuel runs out. -/
def utf8CountFrom (h : List Nat) : Nat → Nat → Option Nat
  | 0, _ => none
  | fuel+1, o =>
    if h.length ≤ o then some 0
    else
      match UTF8_ADVANCE h o (h.length - o) with
      | some (_, k) => (utf8CountFrom h fuel (o+k)).map (· + 1)
      | none => none

/-- Sequential UTF-16 decode from unit offset `o`: first failure offset. -/
def utf16FailFrom (u : List Nat) : Nat → Nat → Option (Option Nat)
  | 0, _ => none
  | fuel+1, o =>
    if u.length ≤ o then some none
    else
      match UTF16_ADVANCE u o (2 * (u.length - o)) with
      | some (_, du) => utf16FailFrom u fuel (o+du)
      | none => some (some o)

/-- Number of codepoints in a sequential UTF-16 decode from unit offset `o`. -/
def utf16CountFrom (u : List Nat) : Nat → Nat → Option Nat
  | 0, _ => none
  | fuel+1, o =>
    if u.length ≤ o then some 0
    else
      match UTF16_ADVANCE u o (2 * (u.length - o)) with
      | some (_, du) => (utf16CountFrom u fuel (o+du)).map (· + 1)
      | none => none

/-! ## Lemmas about `memEq` -/

theorem memEq_true_iff (h n : List Nat) (o : Nat) :
    memEq h o n = true ↔ (h.drop o).take n.length = n := by
  simp [memEq]

theorem memEq_nil (h : List Nat) (o : Nat) : memEq h o [] = true := by
  simp [memEq]

theorem memEq_bound (h n : List Nat) (o : Nat) (hne : n ≠ [])
    (hm : memEq h o n = true) : o + n.length ≤ h.length := by
  rw [memEq_true_iff] at hm
  have hlen := congrArg List.length hm
  simp [List.length_take, List.length_drop] at hlen
  have hpos : 0 < n.length := List.length_pos.mpr hne
  omega

theorem memEq_getD (h n : List Nat) (o : Nat) (hm : memEq h o n = true)
    (i : Nat) (hi : i < n.length) (hb : o + i < h.length) :
    h.getD (o + i) 0 = n.getD i 0 := by
  rw [memEq_true_iff] at hm
  have : n.getD i 0 = ((h.drop o).take n.length).getD i 0 := by rw [hm]
  rw [this]
  rw [List.getD_eq_getElem?_getD, List.getD_eq_getElem?_getD,
    List.getElem?_take, if_pos hi, List.getElem?_drop]

theorem memEq_single (h : List Nat) (o : Nat) (a : Nat) (ho : o < h.length) :
    memEq h o [a] = (h.getD o 0 == a) := by
  have hget : h.getD o 0 = h[o] := by
    rw [List.getD_eq_getElem?_getD, List.getElem?_eq_getElem ho]; rfl
  have hdrop : h.drop o = h[o] :: h.drop (o+1) := List.drop_eq_getElem_cons ho
  rw [Bool.eq_iff_iff, beq_iff_eq, memEq_true_iff, List.length_singleton, hdrop]
  have htake : (h[o] :: h.drop (o+1)).take 1 = [h[o]] := rfl
  rw [htake, hget]
  constructor
  · intro he
    injection he with h1 h2
  · intro he
    rw [he]

/-! ## Step bounds for the encoding cursors -/

theorem UTF8_ADVANCE_bounds (h : List Nat) (o ss : Nat) (cp k : Nat)
    (ha : UTF8_ADVANCE h o ss = some (cp, k)) : 1 ≤ k ∧ k ≤ ss := by
  unfold UTF8_ADVANCE at ha
  dsimp only at ha
  split_ifs at ha with h1 h2 h3 h4 <;>
    simp only [Option.some.injEq, Prod.mk.injEq] at ha <;> omega

theorem UTF16_ADVANCE_bounds (u : List Nat) (o ss : Nat) (cp du : Nat)
    (ha : UTF16_ADVANCE u o ss = some (cp, du)) : 1 ≤ du ∧ 2 * du ≤ ss := by
  unfold UTF16_ADVANCE at ha
  dsimp only at ha
  split_ifs at ha with h1 h2 <;>
    simp only [Option.some.injEq, Prod.mk.injEq] at ha <;> omega

/-! ## Skip-table lemmas -/

theorem fbmhF_succ (n : List Nat) (L : Nat) :
    (List.range (L+1)).foldl
      (fun t ix => Function.update t (n.getD ix 0) (n.length - 1 - ix)) (fun _ => n.length)
    = Function.update
        ((List.range L).foldl
          (fun t ix => Function.update t (n.getD ix 0) (n.length - 1 - ix)) (fun _ => n.length))
        (n.getD L 0) (n.length - 1 - L) := by
  rw [List.range_succ, List.foldl_append]
  rfl

theorem fbmhF_le (n : List Nat) (L : Nat) (c : Nat) :
    (List.range L).foldl
      (fun t ix => Function.update t (n.getD ix 0) (n.length - 1 - ix)) (fun _ => n.length) c
    ≤ n.length := by
  induction L with
  | zero => simp [List.range_zero]
  | succ L ih =>
    rw [fbmhF_succ, Function.update_apply]
    split
    · omega
    · exact ih

theorem fbmhF_pos (n : List Nat) (hm : 2 ≤ n.length) (L : Nat) (hL : L ≤ n.length - 1)
    (c : Nat) :
    1 ≤ (List.range L).foldl
      (fun t ix => Function.update t (n.getD ix 0) (n.length - 1 - ix)) (fun _ => n.length) c := by
  induction L with
  | zero => simp [List.range_zero]; omega
  | succ L ih =>
    rw [fbmhF_succ, Function.update_apply]
    split
    · omega
    · exact ih (by omega)

theorem fbmhF_hit (n : List Nat) (L : Nat) (c i : Nat) (hi : i < L)
    (hc : n.getD i 0 = c) :
    (List.range L).foldl
      (fun t ix => Function.update t (n.getD ix 0) (n.length - 1 - ix)) (fun _ => n.length) c
    ≤ n.length - 1 - i := by
  induction L with
  | zero => omega
  | succ L ih =>
    rw [fbmhF_succ, Function.update_apply]
    split_ifs with hkey
    · omega
    · rcases Nat.lt_succ_iff_lt_or_eq.mp hi with hlt | heq
      · exact ih hlt
      · exact absurd (heq ▸ hc).symm hkey

theorem fbmh_setup_zero (n : List Nat) :
    fbmh_setup n 0 = (List.range (n.length - 1)).foldl
      (fun t ix => Function.update t (n.getD ix 0) (n.length - 1 - ix)) (fun _ => n.length) := by
  simp [fbmh_setup]

theorem fbmh0_le (n : List Nat) (c : Nat) : fbmh_setup n 0 c ≤ n.length := by
  rw [fbmh_setup_zero]; exact fbmhF_le n _ c

theorem fbmh0_pos (n : List Nat) (hm : 2 ≤ n.length) (c : Nat) :
    1 ≤ fbmh_setup n 0 c := by
  rw [fbmh_setup_zero]; exact fbmhF_pos n hm _ le_rfl c

theorem fbmh0_hit (n : List Nat) (c i : Nat) (hi : i < n.length - 1)
    (hc : n.getD i 0 = c) : fbmh_setup n 0 c ≤ n.length - 1 - i := by
  rw [fbmh_setup_zero]; exact fbmhF_hit n _ c i hi hc

theorem rbmhF_succ (n : List Nat) (k : Nat) (init : Nat → Nat) :
    (downFrom (k+1)).foldl (fun t ix => Function.update t (n.getD ix 0) ix) init
    = (downFrom k).foldl (fun t ix => Function.update t (n.getD ix 0) ix)
        (Function.update init (n.getD (k+1) 0) (k+1)) := rfl

theorem rbmhF_point (n : List Nat) :
    ∀ (k : Nat) (init : Nat → Nat) (c : Nat),
      (downFrom k).foldl (fun t ix => Function.update t (n.getD ix 0) ix) init c = init c ∨
      (downFrom k).foldl (fun t ix => Function.update t (n.getD ix 0) ix) init c ≤ k := by
  intro k
  induction k with
  | zero => intro init c; left; rfl
  | succ k ih =>
    intro init c
    rw [rbmhF_succ]
    rcases ih (Function.update init (n.getD (k+1) 0) (k+1)) c with hp | hp
    · rw [hp, Function.update_apply]
      split
      · right; omega
      · left; rfl
    · right; omega

theorem rbmhF_pos (n : List Nat) :
    ∀ (k : Nat) (init : Nat → Nat), (∀ c, 1 ≤ init c) → ∀ c,
      1 ≤ (downFrom k).foldl (fun t ix => Function.update t (n.getD ix 0) ix) init c := by
  intro k
  induction k with
  | zero => intro init hinit c; exact hinit c
  | succ k ih =>
    intro init hinit c
    rw [rbmhF_succ]
    refine ih _ (fun c' => ?_) c
    rw [Function.update_apply]
    split
    · omega
    · exact hinit c'

theorem rbmhF_hit (n : List Nat) :
    ∀ (k : Nat) (init : Nat → Nat) (c i : Nat), 1 ≤ i → i ≤ k → n.getD i 0 = c →
      (downFrom k).foldl (fun t ix => Function.update t (n.getD ix 0) ix) init c ≤ i := by
  intro k
  induction k with
  | zero => intro init c i h1 h2 _; omega
  | succ k ih =>
    intro init c i h1 h2 hc
    rw [rbmhF_succ]
    rcases Nat.lt_succ_iff_lt_or_eq.mp (Nat.lt_succ_of_le h2) with hlt | heq
    · exact ih _ c i h1 (by omega) hc
    · subst heq
      rcases rbmhF_point n k (Function.update init (n.getD (k+1) 0) (k+1)) c with hp | hp
      · rw [hp, Function.update_apply, if_pos hc.symm]
      · omega

theorem rbmh_setup_zero (n : List Nat) :
    rbmh_setup n 0 = (downFrom (n.length - 1)).foldl
      (fun t ix => Function.update t (n.getD ix 0) ix) (fun _ => n.length) := by
  simp [rbmh_setup]

theorem rbmh0_le (n : List Nat) (c : Nat) : rbmh_setup n 0 c ≤ n.length := by
  rw [rbmh_setup_zero]
  rcases rbmhF_point n (n.length - 1) (fun _ => n.length) c with hp | hp
  · rw [hp]
  · omega

theorem rbmh0_pos (n : List Nat) (hm : 2 ≤ n.length) (c : Nat) :
    1 ≤ rbmh_setup n 0 c := by
  rw [rbmh_setup_zero]
  exact rbmhF_pos n _ _ (fun _ => by omega) c

theorem rbmh0_hit (n : List Nat) (c i : Nat) (h1 : 1 ≤ i) (hi : i ≤ n.length - 1)
    (hc : n.getD i 0 = c) : rbmh_setup n 0 c ≤ i := by
  rw [rbmh_setup_zero]
  exact rbmhF_hit n _ _ c i h1 hi hc

/-! ## The Horspool skip never jumps over an occurrence -/

theorem fwd_skip_no_occ (h n : List Nat) (hm : 2 ≤ n.length) (o d : Nat)
    (hd1 : 0 < d) (hd2 : d < fbmh_setup n 0 (h.getD (o + n.length - 1) 0)) :
    memEq h (o + d) n = false := by
  by_contra hcon
  rw [Bool.not_eq_false] at hcon
  have hne : n ≠ [] := by intro he; rw [he] at hm; simp at hm
  have hskip_le := fbmh0_le n (h.getD (o + n.length - 1) 0)
  have hd_le : d ≤ n.length - 1 := by omega
  have hb := memEq_bound h n (o + d) hne hcon
  have hi : n.length - 1 - d < n.length := by omega
  have hp := memEq_getD h n (o + d) hcon (n.length - 1 - d) hi (by omega)
  have harith : o + d + (n.length - 1 - d) = o + n.length - 1 := by omega
  rw [harith] at hp
  have hhit := fbmh0_hit n (h.getD (o + n.length - 1) 0) (n.length - 1 - d)
    (by omega) hp.symm
  omega

theorem bwd_skip_no_occ (h n : List Nat) (hm : 2 ≤ n.length) (o d : Nat)
    (hd1 : 0 < d) (hdo : d ≤ o) (hwin : o + n.length ≤ h.length)
    (hd2 : d < rbmh_setup n 0 (h.getD o 0)) :
    memEq h (o - d) n = false := by
  by_contra hcon
  rw [Bool.not_eq_false] at hcon
  have hskip_le := rbmh0_le n (h.getD o 0)
  have hd_le : d ≤ n.length - 1 := by omega
  have hp := memEq_getD h n (o - d) hcon d (by omega) (by omega)
  have harith : o - d + d = o := by omega
  rw [harith] at hp
  have hhit := rbmh0_hit n (h.getD o 0) d hd1 hd_le hp.symm
  omega

/-! ## Fuel congruence and skipping lemmas for the naive references -/

theorem naiveFwdFrom_congr (h n : List Nat) :
    ∀ f f' o, o ≤ h.length + 1 → h.length + 2 ≤ f + o → h.length + 2 ≤ f' + o →
      naiveFwdFrom h n f o = naiveFwdFrom h n f' o := by
  intro f
  induction f with
  | zero => intro f' o ho hf _; omega
  | succ f ih =>
    intro f' o ho hf hf'
    obtain ⟨f'', rfl⟩ : ∃ f'', f' = f'' + 1 := ⟨f' - 1, by omega⟩
    simp only [naiveFwdFrom]
    split_ifs with hcond hmem
    · rfl
    · exact ih f'' (o+1) (by omega) (by omega) (by omega)
    · rfl

theorem naiveFwdFrom_skip (h n : List Nat) :
    ∀ s o f f', (∀ d, d < s → memEq h (o + d) n = false) →
      o ≤ h.length + 1 → o + s ≤ h.length + 1 →
      h.length + 2 ≤ f + o → h.length + 2 ≤ f' + (o + s) →
      naiveFwdFrom h n f o = naiveFwdFrom h n f' (o + s) := by
  intro s
  induction s with
  | zero =>
    intro o f f' _ ho _ hf hf'
    have := naiveFwdFrom_congr h n f f' o ho hf (by omega)
    simpa using this
  | succ s ih =>
    intro o f f' hno ho hos hf hf'
    obtain ⟨f'', rfl⟩ : ∃ f'', f = f'' + 1 := ⟨f - 1, by omega⟩
    simp only [naiveFwdFrom]
    split_ifs with hcond hmem
    · have h0 : memEq h o n = false := by
        have := hno 0 (by omega); rwa [Nat.add_zero] at this
      rw [h0] at hmem
      exact absurd hmem Bool.false_ne_true
    · rw [show o + (s+1) = (o+1) + s from by omega]
      refine ih (o+1) f'' f' (fun d hd => ?_) (by omega) (by omega) (by omega) (by omega)
      have := hno (d+1) (by omega)
      rwa [show o + (d+1) = o + 1 + d from by omega] at this
    · obtain ⟨g', rfl⟩ : ∃ g', f' = g' + 1 := ⟨f' - 1, by omega⟩
      simp only [naiveFwdFrom]
      rw [if_neg (by omega)]

theorem naiveRevFrom_congr (h n : List Nat) :
    ∀ f f' o, o + 1 ≤ f → o + 1 ≤ f' → naiveRevFrom h n f o = naiveRevFrom h n f' o := by
  intro f
  induction f with
  | zero => intro f' o hf _; omega
  | succ f ih =>
    intro f' o hf hf'
    obtain ⟨f'', rfl⟩ : ∃ f'', f' = f'' + 1 := ⟨f' - 1, by omega⟩
    simp only [naiveRevFrom]
    split_ifs with hmem ho
    · rfl
    · rfl
    · exact ih f'' (o-1) (by omega) (by omega)

theorem naiveRevFrom_skip (h n : List Nat) :
    ∀ s o f f', (∀ d, d < s → memEq h (o - d) n = false) → s ≤ o →
      o + 1 ≤ f → (o - s) + 1 ≤ f' →
      naiveRevFrom h n f o = naiveRevFrom h n f' (o - s) := by
  intro s
  induction s with
  | zero =>
    intro o f f' _ _ hf hf'
    have := naiveRevFrom_congr h n f f' o hf (by simpa using hf')
    simpa using this
  | succ s ih =>
    intro o f f' hno hso hf hf'
    obtain ⟨f'', rfl⟩ : ∃ f'', f = f'' + 1 := ⟨f - 1, by omega⟩
    simp only [naiveRevFrom]
    have h0 : memEq h o n = false := by
      have := hno 0 (by omega); rwa [Nat.sub_zero] at this
    rw [if_neg (by simp [h0]), if_neg (by omega)]
    rw [show o - (s+1) = (o-1) - s from by omega]
    refine ih (o-1) f'' f' (fun d hd => ?_) (by omega) (by omega) (by omega)
    have := hno (d+1) (by omega)
    rwa [show o - (d+1) = o - 1 - d from by omega] at this

theorem naiveRevFrom_all_false (h n : List Nat) :
    ∀ o f, (∀ d, d ≤ o → memEq h (o - d) n = false) → o + 1 ≤ f →
      naiveRevFrom h n f o = some 0 := by
  intro o
  induction o with
  | zero =>
    intro f hno hf
    obtain ⟨f'', rfl⟩ : ∃ f'', f = f'' + 1 := ⟨f - 1, by omega⟩
    simp only [naiveRevFrom]
    have h0 : memEq h 0 n = false := by
      have := hno 0 (by omega); rwa [Nat.sub_zero] at this
    rw [if_neg (by simp [h0])]
    simp
  | succ o ih =>
    intro f hno hf
    obtain ⟨f'', rfl⟩ : ∃ f'', f = f'' + 1 := ⟨f - 1, by omega⟩
    simp only [naiveRevFrom]
    have h0 : memEq h (o+1) n = false := by
      have := hno 0 (by omega); rwa [Nat.sub_zero] at this
    rw [if_neg (by simp [h0]), if_neg (by omega)]
    rw [show o + 1 - 1 = o from rfl]
    refine ih f'' (fun d hd => ?_) (by omega)
    have := hno (d+1) (by omega)
    rwa [show o + 1 - (d+1) = o - d from by omega] at this

theorem naiveFwdFrom_bounds (h n : List Nat) :
    ∀ f o r, naiveFwdFrom h n f o = some r → 0 ≤ r ∧ r ≤ (h.length : Int) + 1 := by
  intro f
  induction f with
  | zero => intro o r hr; exact absurd hr (by simp [naiveFwdFrom])
  | succ f ih =>
    intro o r hr
    simp only [naiveFwdFrom] at hr
    split_ifs at hr with hcond hmem
    · simp only [Option.some.injEq] at hr; omega
    · exact ih (o+1) r hr
    · simp only [Option.some.injEq] at hr; omega

theorem naiveRevFrom_bounds (h n : List Nat) :
    ∀ f o r, o ≤ h.length → naiveRevFrom h n f o = some r →
      0 ≤ r ∧ r ≤ (h.length : Int) + 1 := by
  intro f
  induction f with
  | zero => intro o r _ hr; exact absurd hr (by simp [naiveRevFrom])
  | succ f ih =>
    intro o r ho hr
    simp only [naiveRevFrom] at hr
    split_ifs at hr with hmem h0
    · simp only [Option.some.injEq] at hr; omega
    · simp only [Option.some.injEq] at hr; omega
    · exact ih (o-1) r (by omega) hr

/-! ## The forward blob loops compute the naive forward search -/

theorem instrBlobLoopM_eq (h n : List Nat) (hm : 2 ≤ n.length) :
    ∀ fuel o, o ≤ h.length → h.length - o < fuel →
      instrBlobLoopM h n (fbmh_setup n 0) fuel o (h.length - o) ((o : Int) + 1)
        = naiveFwdFrom h n (h.length + 2 - o) o := by
  intro fuel
  induction fuel with
  | zero => intro o ho hf; omega
  | succ fuel ih =>
    intro o ho hf
    obtain ⟨g', hg'⟩ : ∃ g', h.length + 2 - o = g' + 1 := ⟨h.length + 1 - o, by omega⟩
    rw [hg']
    simp only [instrBlobLoopM, naiveFwdFrom]
    by_cases hcond : n.length ≤ h.length - o
    · rw [if_pos hcond, if_pos (by omega : o + n.length ≤ h.length)]
      by_cases hmem : memEq h o n = true
      · rw [if_pos hmem, if_pos hmem]
      · rw [if_neg hmem, if_neg hmem]
        set skip := fbmh_setup n 0 (h.getD (o + n.length - 1) 0) with hskip
        have hs1 : 1 ≤ skip := fbmh0_pos n hm _
        have hs2 : skip ≤ n.length := fbmh0_le n _
        rw [show h.length - o - skip = h.length - (o + skip) from by omega,
            show (o : Int) + 1 + (skip : Int) = ((o + skip : Nat) : Int) + 1 from by omega]
        rw [ih (o + skip) (by omega) (by omega)]
        have hb := naiveFwdFrom_skip h n (skip - 1) (o+1) g' (h.length + 2 - (o + skip))
          (fun d hd => by
            have := fwd_skip_no_occ h n hm o (d+1) (by omega) (by omega)
            rwa [show o + (d+1) = o + 1 + d from by omega] at this)
          (by omega) (by omega) (by omega) (by omega)
        rw [show (o+1) + (skip-1) = o + skip from by omega] at hb
        exact hb.symm
    · rw [if_neg hcond, if_neg (by omega : ¬ (o + n.length ≤ h.length))]

theorem instrBlobLoop1_eq (h : List Nat) (a : Nat) :
    ∀ fuel o, o ≤ h.length → h.length - o < fuel →
      instrBlobLoop1 h a fuel o (h.length - o) ((o : Int) + 1)
        = naiveFwdFrom h [a] (h.length + 2 - o) o := by
  intro fuel
  induction fuel with
  | zero => intro o ho hf; omega
  | succ fuel ih =>
    intro o ho hf
    obtain ⟨g', hg'⟩ : ∃ g', h.length + 2 - o = g' + 1 := ⟨h.length + 1 - o, by omega⟩
    rw [hg']
    simp only [instrBlobLoop1, naiveFwdFrom, List.length_singleton]
    by_cases hcond : 0 < h.length - o
    · rw [if_pos hcond, if_pos (by omega : o + 1 ≤ h.length)]
      rw [memEq_single h o a (by omega)]
      by_cases hbeq : (h.getD o 0 == a) = true
      · rw [if_pos hbeq, if_pos hbeq]
      · rw [if_neg hbeq, if_neg hbeq]
        rw [show h.length - o - 1 = h.length - (o+1) from by omega,
            show (o : Int) + 1 + 1 = ((o + 1 : Nat) : Int) + 1 from by omega]
        rw [ih (o+1) (by omega) (by omega)]
        congr 1
        omega
    · rw [if_neg hcond, if_neg (by omega : ¬ (o + 1 ≤ h.length))]

theorem instrBlobGo_eq (h n : List Nat) (hne : n ≠ []) (o : Nat) (ho : o ≤ h.length) :
    instrBlobGo h n ((o : Int) + 1) o (h.length - o) = naiveFwdFrom h n (h.length + 2 - o) o := by
  have hnl : 1 ≤ n.length := List.length_pos.mpr hne
  unfold instrBlobGo
  by_cases hfit : h.length - o < n.length
  · rw [if_pos hfit]
    obtain ⟨g', hg'⟩ : ∃ g', h.length + 2 - o = g' + 1 := ⟨h.length + 1 - o, by omega⟩
    rw [hg']
    simp only [naiveFwdFrom]
    rw [if_neg (by omega)]
  · rw [if_neg hfit, if_neg (by omega : ¬ n.length ≤ 0)]
    by_cases h2 : 1 < n.length
    · rw [if_pos h2]
      exact instrBlobLoopM_eq h n (by omega) (h.length - o + 1) o ho (by omega)
    · rw [if_neg h2]
      obtain ⟨a, rfl⟩ := List.length_eq_one.mp (by omega : n.length = 1)
      rw [List.getD_cons_zero]
      exact instrBlobLoop1_eq h a (h.length - o + 1) o ho (by omega)

/-! ## The backward blob loops compute the naive backward search -/

theorem rinstrBlobLoopM_eq (h n : List Nat) (hm : 2 ≤ n.length) :
    ∀ fuel o, o + n.length ≤ h.length → o < fuel →
      rinstrBlobLoopM h n (rbmh_setup n 0) fuel o o ((o : Int) + 1)
        = naiveRevFrom h n (o + 1) o := by
  intro fuel
  induction fuel with
  | zero => intro o ho hf; omega
  | succ fuel ih =>
    intro o ho hf
    simp only [rinstrBlobLoopM]
    by_cases hmem : memEq h o n = true
    · rw [if_pos hmem]
      simp only [naiveRevFrom]
      rw [if_pos hmem]
    · rw [if_neg hmem]
      have h0 : memEq h o n = false := by simpa using hmem
      set skip := rbmh_setup n 0 (h.getD o 0) with hskip
      have hs1 : 1 ≤ skip := rbmh0_pos n hm _
      have hs2 : skip ≤ n.length := rbmh0_le n _
      by_cases hlt : o < skip
      · rw [if_pos hlt]
        refine (naiveRevFrom_all_false h n o (o+1) (fun d hd => ?_) le_rfl).symm
        rcases Nat.eq_zero_or_pos d with rfl | hdpos
        · rwa [Nat.sub_zero]
        · exact bwd_skip_no_occ h n hm o d hdpos (by omega) ho (by omega)
      · rw [if_neg hlt]
        rw [show (o : Int) + 1 - (skip : Int) = ((o - skip : Nat) : Int) + 1 from by omega]
        rw [ih (o - skip) (by omega) (by omega)]
        refine (naiveRevFrom_skip h n skip o (o+1) (o - skip + 1) (fun d hd => ?_)
          (by omega) le_rfl le_rfl).symm
        rcases Nat.eq_zero_or_pos d with rfl | hdpos
        · rwa [Nat.sub_zero]
        · exact bwd_skip_no_occ h n hm o d hdpos (by omega) ho (by omega)

theorem rinstrBlobLoop1_eq (h : List Nat) (a : Nat) :
    ∀ fuel o, o + 1 ≤ h.length → o < fuel →
      rinstrBlobLoop1 h a fuel o o ((o : Int) + 1) = naiveRevFrom h [a] (o + 1) o := by
  intro fuel
  induction fuel with
  | zero => intro o ho hf; omega
  | succ fuel ih =>
    intro o ho hf
    simp only [rinstrBlobLoop1]
    have hms := memEq_single h o a (by omega)
    by_cases hbeq : (h.getD o 0 == a) = true
    · rw [if_pos hbeq]
      simp only [naiveRevFrom]
      rw [if_pos (by rw [hms]; exact hbeq)]
    · rw [if_neg hbeq]
      by_cases ho0 : o ≤ 0
      · rw [if_pos ho0]
        simp only [naiveRevFrom]
        rw [if_neg (by rw [hms]; exact hbeq), if_pos (by omega)]
      · rw [if_neg ho0]
        rw [show (o : Int) + 1 - 1 = ((o - 1 : Nat) : Int) + 1 from by omega]
        rw [ih (o-1) (by omega) (by omega)]
        have hrhs : naiveRevFrom h [a] (o+1) o = naiveRevFrom h [a] o (o-1) := by
          conv_lhs => simp only [naiveRevFrom]
          rw [if_neg (by rw [hms]; exact hbeq), if_neg (by omega)]
        rw [hrhs]
        congr 1
        omega

theorem rinstrBlobGo_eq (h n : List Nat) (hne : n ≠ []) (o : Nat)
    (ho : o + n.length ≤ h.length) :
    rinstrBlobGo h n ((o : Int) + 1) o o = naiveRevFrom h n (o + 1) o := by
  have hnl : 1 ≤ n.length := List.length_pos.mpr hne
  unfold rinstrBlobGo
  rw [if_neg (by omega : ¬ n.length ≤ 0)]
  by_cases h2 : 1 < n.length
  · rw [if_pos h2]
    exact rinstrBlobLoopM_eq h n (by omega) (o + 1) o ho (by omega)
  · rw [if_neg h2]
    obtain ⟨a, rfl⟩ := List.length_eq_one.mp (by omega : n.length = 1)
    rw [List.getD_cons_zero]
    exact rinstrBlobLoop1_eq h a (o + 1) o (by simpa using ho) (by omega)

/-! ## Top-level blob searches with default starts -/

theorem instr_blob_one (h n : List Nat) (hne : n ≠ []) :
    instr_blob h n 1 = naiveInstr h n := by
  unfold instr_blob naiveInstr
  rw [if_neg (by omega : ¬ (1 : Int) < 1)]
  have := instrBlobGo_eq h n hne 0 (by omega)
  simp only [Nat.cast_zero, zero_add, Nat.sub_zero, Nat.add_sub_cancel] at this ⊢
  exact this

theorem rinstr_blob_default (h n : List Nat) (hne : n ≠ []) (hlen : h.length < 2^32) :
    rinstr_blob h n RINSTR_DEFAULT_START = naiveRinstr h n := by
  have hnl : 1 ≤ n.length := List.length_pos.mpr hne
  unfold rinstr_blob naiveRinstr RINSTR_DEFAULT_START
  rw [if_neg (by omega : ¬ (0x7FFFFFFFFFFFFFFF : Int) ≤ 0)]
  by_cases hfit : h.length < n.length
  · rw [if_pos hfit, if_neg (by omega : ¬ n.length ≤ h.length)]
  · rw [if_neg hfit, if_pos (by omega : n.length ≤ h.length)]
    rw [if_pos (by omega : (1 : Int) < 0x7FFFFFFFFFFFFFFF)]
    have hcl : rinstrClamp h.length n.length 0x7FFFFFFFFFFFFFFF
        = ((h.length - n.length : Nat) : Int) + 1 := by
      unfold rinstrClamp
      rw [if_pos (by omega : ((h.length - n.length : Nat) : Int) < 0x7FFFFFFFFFFFFFFF - 1)]
    rw [hcl]
    rw [show (((h.length - n.length : Nat) : Int) + 1 - 1).toNat = h.length - n.length from by omega]
    have := rinstrBlobGo_eq h n hne (h.length - n.length) (by omega)
    rw [this]
    exact naiveRevFrom_congr h n _ _ _ le_rfl (by omega)

/-! ## Claim theorems: C1, C7 -/

/-- C1: for every raw haystack/needle pair with a non-empty needle (and the
haystack within the `vsize` range), forward search with default start `1` and
backward search with the unbounded default start compute exactly the naive
double-loop reference searches: 0 when the needle does not occur, otherwise
the 1-based position of the first (forward) / last (backward) occurrence. -/
theorem C1_blob_eq_naive (h n : List Nat) (hne : n ≠ []) (hlen : h.length < 2^32) :
    instr_blob h n 1 = naiveInstr h n ∧
    rinstr_blob h n RINSTR_DEFAULT_START = naiveRinstr h n :=
  ⟨instr_blob_one h n hne, rinstr_blob_default h n hne hlen⟩

/-- Witness for C1 at a concrete input. -/
theorem C1_blob_eq_naive_witness :
    instr_blob [97,98,99] [98] 1 = naiveInstr [97,98,99] [98] ∧
    rinstr_blob [97,98,99] [98] RINSTR_DEFAULT_START = naiveRinstr [97,98,99] [98] :=
  C1_blob_eq_naive [97,98,99] [98] (by decide) (by norm_num)

/-- C7 counterexample: on raw haystack "abcabcabc" with needle "bca" the
backward search with the unbounded default start does not return 8 (the
needle's occurrences start at positions 2 and 5 only; position 8 would need
bytes beyond the haystack's end). -/
theorem C7_counterexample :
    rinstr_blob [97,98,99,97,98,99,97,98,99] [98,99,97] RINSTR_DEFAULT_START ≠ some 8 := by
  decide

/-- C7 amended: forward search returns position 2 and backward search with
the unbounded default start returns position 5 (the last occurrence). -/
theorem C7_amended :
    instr_blob [97,98,99,97,98,99,97,98,99] [98,99,97] 1 = some 2 ∧
    rinstr_blob [97,98,99,97,98,99,97,98,99] [98,99,97] RINSTR_DEFAULT_START = some 5 :=
  ⟨by decide, by decide⟩

/-! ## C10: blob searches stay in range and never report malformed input -/

theorem instr_blob_bounds (h n : List Nat) (start : Int) (r : Int)
    (hr : instr_blob h n start = some r) : 0 ≤ r ∧ r ≤ (h.length : Int) + 1 := by
  unfold instr_blob at hr
  by_cases hs : 1 < start
  · rw [if_pos hs] at hr
    by_cases hbig : (h.length : Int) < start - 1
    · rw [if_pos hbig] at hr
      simp only [Option.some.injEq] at hr; omega
    · rw [if_neg hbig] at hr
      rcases eq_or_ne n [] with rfl | hne
      · simp only [instrBlobGo, List.length_nil] at hr
        rw [if_neg (by omega : ¬ h.length - (start - 1).toNat < 0),
          if_pos (le_refl 0)] at hr
        simp only [Option.some.injEq] at hr
        omega
      · have hgo := instrBlobGo_eq h n hne ((start - 1).toNat) (by omega)
        rw [show (((start - 1).toNat : Nat) : Int) + 1 = start from by omega] at hgo
        rw [hgo] at hr
        exact naiveFwdFrom_bounds h n _ _ r hr
  · rw [if_neg hs] at hr
    rcases eq_or_ne n [] with rfl | hne
    · simp only [instrBlobGo, List.length_nil] at hr
      rw [if_neg (by omega : ¬ h.length < 0), if_pos (le_refl 0)] at hr
      simp only [Option.some.injEq] at hr
      omega
    · have hgo := instrBlobGo_eq h n hne 0 (by omega)
      simp only [Nat.cast_zero, zero_add, Nat.sub_zero] at hgo
      rw [hgo] at hr
      exact naiveFwdFrom_bounds h n _ _ r hr

theorem rinstr_blob_bounds (h n : List Nat) (start : Int) (r : Int)
    (hr : rinstr_blob h n start = some r) : 0 ≤ r ∧ r ≤ (h.length : Int) + 1 := by
  unfold rinstr_blob at hr
  by_cases hs0 : start ≤ 0
  · rw [if_pos hs0] at hr
    simp only [Option.some.injEq] at hr; omega
  · rw [if_neg hs0] at hr
    by_cases hfit : h.length < n.length
    · rw [if_pos hfit] at hr
      simp only [Option.some.injEq] at hr; omega
    · rw [if_neg hfit] at hr
      by_cases hs1 : 1 < start
      · rw [if_pos hs1] at hr
        have hclb : 1 ≤ rinstrClamp h.length n.length start ∧
            rinstrClamp h.length n.length start - 1 ≤ ((h.length - n.length : Nat) : Int) := by
          unfold rinstrClamp
          split_ifs with hc
          · omega
          · omega
        rcases eq_or_ne n [] with rfl | hne
        · simp only [rinstrBlobGo, List.length_nil] at hr
          rw [if_pos (le_refl 0)] at hr
          simp only [Option.some.injEq] at hr
          have hle : ((h.length - 0 : Nat) : Int) ≤ (h.length : Int) := by omega
          simp only [List.length_nil] at hclb
          omega
        · have hgo := rinstrBlobGo_eq h n hne ((rinstrClamp h.length n.length start - 1).toNat)
            (by omega)
          rw [show (((rinstrClamp h.length n.length start - 1).toNat : Nat) : Int) + 1
              = rinstrClamp h.length n.length start from by omega] at hgo
          rw [hgo] at hr
          exact naiveRevFrom_bounds h n _ _ r (by omega) hr
      · rw [if_neg hs1] at hr
        rcases eq_or_ne n [] with rfl | hne
        · simp only [rinstrBlobGo, List.length_nil] at hr
          rw [if_pos (le_refl 0)] at hr
          simp only [Option.some.injEq] at hr
          omega
        · have hgo := rinstrBlobGo_eq h n hne 0 (by omega)
          simp only [Nat.cast_zero, zero_add] at hgo
          rw [hgo] at hr
          exact naiveRevFrom_bounds h n _ _ r (by omega) hr

/-- C10: for every raw haystack/needle pair and every start value, both blob
searches, whenever they return, return a value in `{0} ∪ [1, length+1]`; the
`MalformedInput` sentinel `-1` is never returned, so the malformed-text error
branch of the adapter is unreachable for BLOB/BLOB inputs. -/
theorem C10_blob_range (h n : List Nat) (start : Int) (r : Int) :
    (instr_blob h n start = some r → 0 ≤ r ∧ r ≤ (h.length : Int) + 1) ∧
    (rinstr_blob h n start = some r → 0 ≤ r ∧ r ≤ (h.length : Int) + 1) :=
  ⟨instr_blob_bounds h n start r, rinstr_blob_bounds h n start r⟩

/-- Witness for C10 at a concrete input. -/
theorem C10_blob_range_witness :
    (0 ≤ (2 : Int) ∧ (2 : Int) ≤ (([97,98] : List Nat).length : Int) + 1) ∧
    (0 ≤ (2 : Int) ∧ (2 : Int) ≤ (([97,98] : List Nat).length : Int) + 1) :=
  ⟨(C10_blob_range [97,98] [98] 1 2).1 (by decide),
   (C10_blob_range [97,98] [98] RINSTR_DEFAULT_START 2).2 (by decide)⟩

/-! ## C5: the backward UTF-8 cursor rejects valid 3- and 4-byte sequences -/

/-- C5: the claim that `UTF8_RETREAT` mirrors `UTF8_ADVANCE` fails on the
code: `UTF8_ADVANCE` accepts the well-formed 3-byte sequence `E2 82 AC`
(U+20AC) and the 4-byte sequence `F0 90 8D 88` (U+10348), but `UTF8_RETREAT`
applied at their ends yields the invalid outcome, because its 3- and 4-byte
branches require the middle continuation bytes to lie in `0xC2..0xDF` (the
two-byte lead range), which a continuation byte in `0x80..0xBF` never
satisfies — those branches are dead code. -/
theorem C5_retreat_rejects_valid :
    UTF8_ADVANCE [0xE2,0x82,0xAC] 0 3 = some (0x20AC, 3) ∧
    UTF8_RETREAT [0xE2,0x82,0xAC] 3 3 = none ∧
    UTF8_ADVANCE [0xF0,0x90,0x8D,0x88] 0 4 = some (0x10348, 4) ∧
    UTF8_RETREAT [0xF0,0x90,0x8D,0x88] 4 4 = none :=
  ⟨by decide, by decide, by decide, by decide⟩

/-! ## C3/C4: the backward UTF-8 searches hang when a retreat fails -/

theorem rinstrUtf8Loop1_stuck :
    ∀ fuel found, rinstrUtf8Loop1 [0xE2,0x82,0xAC,0x78] 0x79 fuel 3 3 found = none := by
  intro fuel
  induction fuel with
  | zero => intro found; rfl
  | succ fuel ih =>
    intro found
    rw [rinstrUtf8Loop1]
    rw [if_neg (by decide), if_neg (by decide),
      show UTF8_RETREAT [0xE2,0x82,0xAC,0x78] 3 3 = none from by decide]
    exact ih (found - 1)

/-- C3: the claim that every search call terminates fails on the code: on the
well-formed UTF-8 haystack `E2 82 AC 78` ("€x") with needle `79` ("y") and
the default start, `rinstr_utf8` walks backward, `UTF8_RETREAT` yields the
invalid outcome without moving the cursor (its 3-byte branch is dead code),
the loop ignores the outcome, and the state repeats forever: no fuel bound
makes the embedded call return. -/
theorem C3_rinstr_utf8_diverges :
    ∀ fuel, rinstr_utf8 fuel [0xE2,0x82,0xAC,0x78] [0x79] RINSTR_DEFAULT_START = none := by
  intro fuel
  match fuel with
  | 0 => rfl
  | 1 => rfl
  | (k+2) =>
    have hphase : rinstrUtf8Phase [0xE2,0x82,0xAC,0x78] 1 RINSTR_DEFAULT_START (k+2) 0 4 1
        = some (Sum.inr (3, 1, 2)) := by
      have hstep1 : rinstrUtf8Phase [0xE2,0x82,0xAC,0x78] 1 RINSTR_DEFAULT_START (k+2) 0 4 1
          = rinstrUtf8Phase [0xE2,0x82,0xAC,0x78] 1 RINSTR_DEFAULT_START (k+1) 3 1 2 := rfl
      have hstep2 : rinstrUtf8Phase [0xE2,0x82,0xAC,0x78] 1 RINSTR_DEFAULT_START (k+1) 3 1 2
          = some (Sum.inr (3, 1, 2)) := rfl
      rw [hstep1, hstep2]
    calc rinstr_utf8 (k+2) [0xE2,0x82,0xAC,0x78] [0x79] RINSTR_DEFAULT_START
        = (match rinstrUtf8Phase [0xE2,0x82,0xAC,0x78] 1 RINSTR_DEFAULT_START (k+2) 0 4 1 with
            | none => none
            | some (Sum.inl r) => some r
            | some (Sum.inr (o, _, found)) =>
                rinstrUtf8Loop1 [0xE2,0x82,0xAC,0x78] 0x79 (k+2) o o found) := rfl
      _ = rinstrUtf8Loop1 [0xE2,0x82,0xAC,0x78] 0x79 (k+2) 3 3 2 := by rw [hphase]
      _ = none := rinstrUtf8Loop1_stuck (k+2) 2

theorem rinstrUtf8LoopM_stuck :
    ∀ fuel found, rinstrUtf8LoopM [0xE2,0x82,0xAC,0x41,0x42] [0x43,0x44]
      (rbmh_setup [0x43,0x44] 0) fuel 3 3 found 1 = none := by
  intro fuel
  induction fuel with
  | zero => intro found; rfl
  | succ fuel ih =>
    intro found
    rw [rinstrUtf8LoopM]
    rw [if_neg (by decide), if_neg (by decide),
      show UTF8_RETREAT [0xE2,0x82,0xAC,0x41,0x42] 3 3 = none from by decide]
    exact ih (found - 1)

/-- C4: the claim that a decode failure met while walking backward yields
`MalformedInput` fails on the code: on haystack `E2 82 AC 41 42` ("€AB") with
needle `43 44` ("CD") and the default start, the backward scan's
`UTF8_RETREAT` yields the invalid outcome at the 3-byte sequence, but the
loop neither returns `-1` nor `0` — it ignores the outcome and repeats the
same cursor state forever. -/
theorem C4_rinstr_utf8_no_malformed :
    ∀ fuel, rinstr_utf8 fuel [0xE2,0x82,0xAC,0x41,0x42] [0x43,0x44] RINSTR_DEFAULT_START
      = none := by
  intro fuel
  match fuel with
  | 0 => rfl
  | 1 => rfl
  | (k+2) =>
    have hphase : rinstrUtf8Phase [0xE2,0x82,0xAC,0x41,0x42] 2 RINSTR_DEFAULT_START (k+2) 0 5 1
        = some (Sum.inr (3, 2, 2)) := by
      have hstep1 : rinstrUtf8Phase [0xE2,0x82,0xAC,0x41,0x42] 2 RINSTR_DEFAULT_START (k+2) 0 5 1
          = rinstrUtf8Phase [0xE2,0x82,0xAC,0x41,0x42] 2 RINSTR_DEFAULT_START (k+1) 3 2 2 := rfl
      have hstep2 : rinstrUtf8Phase [0xE2,0x82,0xAC,0x41,0x42] 2 RINSTR_DEFAULT_START (k+1) 3 2 2
          = some (Sum.inr (3, 2, 2)) := rfl
      rw [hstep1, hstep2]
    have hfirst : ∀ m found, rinstrUtf8LoopM [0xE2,0x82,0xAC,0x41,0x42] [0x43,0x44]
        (rbmh_setup [0x43,0x44] 0) (m+1) 3 3 found 3
        = rinstrUtf8LoopM [0xE2,0x82,0xAC,0x41,0x42] [0x43,0x44]
            (rbmh_setup [0x43,0x44] 0) m 3 3 (found - 1) 1 := fun m found => rfl
    calc rinstr_utf8 (k+2) [0xE2,0x82,0xAC,0x41,0x42] [0x43,0x44] RINSTR_DEFAULT_START
        = (match rinstrUtf8Phase [0xE2,0x82,0xAC,0x41,0x42] 2 RINSTR_DEFAULT_START (k+2) 0 5 1 with
            | none => none
            | some (Sum.inl r) => some r
            | some (Sum.inr (o, _, found)) =>
                rinstrUtf8LoopM [0xE2,0x82,0xAC,0x41,0x42] [0x43,0x44]
                  (rbmh_setup [0x43,0x44] 0) (k+2) o o found o) := rfl
      _ = rinstrUtf8LoopM [0xE2,0x82,0xAC,0x41,0x42] [0x43,0x44]
            (rbmh_setup [0x43,0x44] 0) (k+2) 3 3 2 3 := by rw [hphase]
      _ = rinstrUtf8LoopM [0xE2,0x82,0xAC,0x41,0x42] [0x43,0x44]
            (rbmh_setup [0x43,0x44] 0) (k+1) 3 3 1 1 := hfirst (k+1) 2
      _ = none := rinstrUtf8LoopM_stuck (k+1) 1

/-! ## C2: the backward UTF-16 search can report a non-boundary position -/

/-- C2: the boundary-safety claim fails on the code.  The haystack
`D800 DC00 0058 0059 0057` is well-formed UTF-16 (a surrogate pair followed
by three BMP units), yet `rinstr_utf16` with needle `0057` and start 3
returns position 1: while retreating over the surrogate pair,
`UTF16_RETREAT` executes `ptr += 2` and the cursor jumps *forward* to unit 4,
where the needle matches and the stale position counter 1 is reported.
Re-decoding 1-1 = 0 codepoints from the start lands at unit 0, where the
needle does not occur, so the reported position is not the match start. -/
theorem C2_rinstr_utf16_bad_position :
    utf16FailFrom [0xD800,0xDC00,0x58,0x59,0x57] 6 0 = some none ∧
    rinstr_utf16 10 [0xD800,0xDC00,0x58,0x59,0x57] [0x57] 3 = some 1 ∧
    memEqU [0xD800,0xDC00,0x58,0x59,0x57] 0 [0x57] = false :=
  ⟨by decide, by decide, by decide⟩

/-! ## Step equations for the fueled helpers -/

theorem utf8CountFrom_end (h : List Nat) (f o : Nat) (hend : h.length ≤ o) :
    utf8CountFrom h (f+1) o = some 0 := by
  simp only [utf8CountFrom]; rw [if_pos hend]

theorem utf8CountFrom_fail (h : List Nat) (f o : Nat) (hend : ¬ h.length ≤ o)
    (hadv : UTF8_ADVANCE h o (h.length - o) = none) :
    utf8CountFrom h (f+1) o = none := by
  simp only [utf8CountFrom]; rw [if_neg hend, hadv]

theorem utf8CountFrom_step (h : List Nat) (f o cp k : Nat) (hend : ¬ h.length ≤ o)
    (hadv : UTF8_ADVANCE h o (h.length - o) = some (cp, k)) :
    utf8CountFrom h (f+1) o = (utf8CountFrom h f (o+k)).map (· + 1) := by
  simp only [utf8CountFrom]; rw [if_neg hend, hadv]

theorem utf16CountFrom_end (u : List Nat) (f o : Nat) (hend : u.length ≤ o) :
    utf16CountFrom u (f+1) o = some 0 := by
  simp only [utf16CountFrom]; rw [if_pos hend]

theorem utf16CountFrom_fail (u : List Nat) (f o : Nat) (hend : ¬ u.length ≤ o)
    (hadv : UTF16_ADVANCE u o (2 * (u.length - o)) = none) :
    utf16CountFrom u (f+1) o = none := by
  simp only [utf16CountFrom]; rw [if_neg hend, hadv]

theorem utf16CountFrom_step (u : List Nat) (f o cp du : Nat) (hend : ¬ u.length ≤ o)
    (hadv : UTF16_ADVANCE u o (2 * (u.length - o)) = some (cp, du)) :
    utf16CountFrom u (f+1) o = (utf16CountFrom u f (o+du)).map (· + 1) := by
  simp only [utf16CountFrom]; rw [if_neg hend, hadv]

theorem rinstrUtf8Phase_exit (h : List Nat) (nl : Nat) (start : Int) (f o ss : Nat)
    (found : Int) (hcond : ¬ (found < start ∧ nl < ss)) :
    rinstrUtf8Phase h nl start (f+1) o ss found = some (Sum.inr (o, ss, found)) := by
  simp only [rinstrUtf8Phase]; rw [if_neg hcond]

theorem rinstrUtf8Phase_fail (h : List Nat) (nl : Nat) (start : Int) (f o ss : Nat)
    (found : Int) (hcond : found < start ∧ nl < ss)
    (hadv : UTF8_ADVANCE h o ss = none) :
    rinstrUtf8Phase h nl start (f+1) o ss found = some (Sum.inl (-1)) := by
  simp only [rinstrUtf8Phase]; rw [if_pos hcond, hadv]

theorem rinstrUtf8Phase_step (h : List Nat) (nl : Nat) (start : Int) (f o ss : Nat)
    (found : Int) (cp k : Nat) (hcond : found < start ∧ nl < ss)
    (hadv : UTF8_ADVANCE h o ss = some (cp, k)) :
    rinstrUtf8Phase h nl start (f+1) o ss found
      = if ss - k < nl then some (Sum.inr (o, ss, found))
        else rinstrUtf8Phase h nl start f (o+k) (ss-k) (found+1) := by
  simp only [rinstrUtf8Phase]; rw [if_pos hcond, hadv]

theorem rinstrUtf16Phase_exit (u : List Nat) (nlB : Nat) (start : Int) (f o ss : Nat)
    (found : Int) (hcond : ¬ (found < start ∧ nlB < ss)) :
    rinstrUtf16Phase u nlB start (f+1) o ss found = some (Sum.inr (o, ss, found)) := by
  simp only [rinstrUtf16Phase]; rw [if_neg hcond]

theorem rinstrUtf16Phase_fail (u : List Nat) (nlB : Nat) (start : Int) (f o ss : Nat)
    (found : Int) (hcond : found < start ∧ nlB < ss)
    (hadv : UTF16_ADVANCE u o ss = none) :
    rinstrUtf16Phase u nlB start (f+1) o ss found = some (Sum.inl (-1)) := by
  simp only [rinstrUtf16Phase]; rw [if_pos hcond, hadv]

theorem rinstrUtf16Phase_step (u : List Nat) (nlB : Nat) (start : Int) (f o ss : Nat)
    (found : Int) (cp du : Nat) (hcond : found < start ∧ nlB < ss)
    (hadv : UTF16_ADVANCE u o ss = some (cp, du)) :
    rinstrUtf16Phase u nlB start (f+1) o ss found
      = if ss - 2*du < nlB then some (Sum.inr (o, ss, found))
        else rinstrUtf16Phase u nlB start f (o+du) (ss-2*du) (found+1) := by
  simp only [rinstrUtf16Phase]; rw [if_pos hcond, hadv]

/-! ## Sequential decode length lemmas -/

theorem utf8CountFrom_congr (h : List Nat) :
    ∀ f f' o, h.length - o < f → h.length - o < f' →
      utf8CountFrom h f o = utf8CountFrom h f' o := by
  intro f
  induction f with
  | zero => intro f' o hf _; omega
  | succ f ih =>
    intro f' o hf hf'
    obtain ⟨f'', rfl⟩ : ∃ f'', f' = f'' + 1 := ⟨f' - 1, by omega⟩
    by_cases hend : h.length ≤ o
    · rw [utf8CountFrom_end h f o hend, utf8CountFrom_end h f'' o hend]
    · cases hadv : UTF8_ADVANCE h o (h.length - o) with
      | none => rw [utf8CountFrom_fail h f o hend hadv, utf8CountFrom_fail h f'' o hend hadv]
      | some ck =>
        obtain ⟨cp, k⟩ := ck
        have hk := UTF8_ADVANCE_bounds h o _ cp k hadv
        rw [utf8CountFrom_step h f o cp k hend hadv, utf8CountFrom_step h f'' o cp k hend hadv,
          ih f'' (o+k) (by omega) (by omega)]

theorem utf8CountFrom_le (h : List Nat) :
    ∀ f o cnt, utf8CountFrom h f o = some cnt → cnt ≤ h.length - o := by
  intro f
  induction f with
  | zero => intro o cnt hc; exact absurd hc (by simp [utf8CountFrom])
  | succ f ih =>
    intro o cnt hc
    by_cases hend : h.length ≤ o
    · rw [utf8CountFrom_end h f o hend] at hc
      simp only [Option.some.injEq] at hc; omega
    · cases hadv : UTF8_ADVANCE h o (h.length - o) with
      | none => rw [utf8CountFrom_fail h f o hend hadv] at hc; exact absurd hc (by simp)
      | some ck =>
        obtain ⟨cp, k⟩ := ck
        rw [utf8CountFrom_step h f o cp k hend hadv] at hc
        simp only [Option.map_eq_some'] at hc
        obtain ⟨cnt', hcnt', hc2⟩ := hc
        have hk := UTF8_ADVANCE_bounds h o _ cp k hadv
        have := ih (o+k) cnt' hcnt'
        omega

theorem utf16CountFrom_congr (u : List Nat) :
    ∀ f f' o, u.length - o < f → u.length - o < f' →
      utf16CountFrom u f o = utf16CountFrom u f' o := by
  intro f
  induction f with
  | zero => intro f' o hf _; omega
  | succ f ih =>
    intro f' o hf hf'
    obtain ⟨f'', rfl⟩ : ∃ f'', f' = f'' + 1 := ⟨f' - 1, by omega⟩
    by_cases hend : u.length ≤ o
    · rw [utf16CountFrom_end u f o hend, utf16CountFrom_end u f'' o hend]
    · cases hadv : UTF16_ADVANCE u o (2 * (u.length - o)) with
      | none => rw [utf16CountFrom_fail u f o hend hadv, utf16CountFrom_fail u f'' o hend hadv]
      | some ck =>
        obtain ⟨cp, du⟩ := ck
        have hk := UTF16_ADVANCE_bounds u o _ cp du hadv
        rw [utf16CountFrom_step u f o cp du hend hadv,
          utf16CountFrom_step u f'' o cp du hend hadv, ih f'' (o+du) (by omega) (by omega)]

theorem utf16CountFrom_le (u : List Nat) :
    ∀ f o cnt, utf16CountFrom u f o = some cnt → cnt ≤ u.length - o := by
  intro f
  induction f with
  | zero => intro o cnt hc; exact absurd hc (by simp [utf16CountFrom])
  | succ f ih =>
    intro o cnt hc
    by_cases hend : u.length ≤ o
    · rw [utf16CountFrom_end u f o hend] at hc
      simp only [Option.some.injEq] at hc; omega
    · cases hadv : UTF16_ADVANCE u o (2 * (u.length - o)) with
      | none => rw [utf16CountFrom_fail u f o hend hadv] at hc; exact absurd hc (by simp)
      | some ck =>
        obtain ⟨cp, du⟩ := ck
        rw [utf16CountFrom_step u f o cp du hend hadv] at hc
        simp only [Option.map_eq_some'] at hc
        obtain ⟨cnt', hcnt', hc2⟩ := hc
        have hk := UTF16_ADVANCE_bounds u o _ cp du hadv
        have := ih (o+du) cnt' hcnt'
        omega

/-! ## C8: empty needle -/

theorem rinstrUtf8Phase_empty (h : List Nat) :
    ∀ fuel o cnt (found start : Int), o ≤ h.length →
      utf8CountFrom h (h.length - o + 1) o = some cnt →
      h.length - o < fuel → found + cnt < start →
      rinstrUtf8Phase h 0 start fuel o (h.length - o) found
        = some (Sum.inr (h.length, 0, found + cnt)) := by
  intro fuel
  induction fuel with
  | zero => intro o cnt found start ho hc hf hlt; omega
  | succ fuel ih =>
    intro o cnt found start ho hc hf hlt
    by_cases hend : h.length ≤ o
    · have ho' : o = h.length := by omega
      subst ho'
      rw [Nat.sub_self] at hc ⊢
      have hc0 : cnt = 0 := by
        rw [utf8CountFrom_end h 0 h.length (le_refl _)] at hc
        simpa using hc.symm
      subst hc0
      rw [rinstrUtf8Phase_exit h 0 start fuel h.length 0 found
        (by intro hcon; exact absurd hcon.2 (by omega))]
      simp
    · cases hadv : UTF8_ADVANCE h o (h.length - o) with
      | none =>
        rw [utf8CountFrom_fail h (h.length - o) o hend hadv] at hc
        exact absurd hc (by simp)
      | some ck =>
        obtain ⟨cp, k⟩ := ck
        rw [utf8CountFrom_step h (h.length - o) o cp k hend hadv] at hc
        simp only [Option.map_eq_some'] at hc
        obtain ⟨cnt', hcnt', hc2⟩ := hc
        have hk := UTF8_ADVANCE_bounds h o _ cp k hadv
        have hcle := utf8CountFrom_le h _ _ _ hcnt'
        rw [rinstrUtf8Phase_step h 0 start fuel o (h.length - o) found cp k
          ⟨by omega, by omega⟩ hadv]
        rw [if_neg (by omega : ¬ h.length - o - k < 0)]
        rw [show h.length - o - k = h.length - (o+k) from by omega]
        have hcnt'' : utf8CountFrom h (h.length - (o+k) + 1) (o+k) = some cnt' := by
          rw [utf8CountFrom_congr h (h.length - (o+k) + 1) (h.length - o) (o+k)
            (by omega) (by omega)]
          exact hcnt'
        rw [ih (o+k) cnt' (found+1) start (by omega) hcnt'' (by omega) (by omega)]
        simp only [Option.some.injEq, Sum.inr.injEq, Prod.mk.injEq]
        refine ⟨trivial, trivial, by omega⟩

theorem rinstrUtf16Phase_empty (u : List Nat) :
    ∀ fuel o cnt (found start : Int), o ≤ u.length →
      utf16CountFrom u (u.length - o + 1) o = some cnt →
      u.length - o < fuel → found + cnt < start →
      rinstrUtf16Phase u 0 start fuel o (2 * (u.length - o)) found
        = some (Sum.inr (u.length, 0, found + cnt)) := by
  intro fuel
  induction fuel with
  | zero => intro o cnt found start ho hc hf hlt; omega
  | succ fuel ih =>
    intro o cnt found start ho hc hf hlt
    by_cases hend : u.length ≤ o
    · have ho' : o = u.length := by omega
      subst ho'
      rw [Nat.sub_self] at hc ⊢
      have hc0 : cnt = 0 := by
        rw [utf16CountFrom_end u 0 u.length (le_refl _)] at hc
        simpa using hc.symm
      subst hc0
      rw [Nat.mul_zero]
      rw [rinstrUtf16Phase_exit u 0 start fuel u.length 0 found
        (by intro hcon; exact absurd hcon.2 (by omega))]
      simp
    · cases hadv : UTF16_ADVANCE u o (2 * (u.length - o)) with
      | none =>
        rw [utf16CountFrom_fail u (u.length - o) o hend hadv] at hc
        exact absurd hc (by simp)
      | some ck =>
        obtain ⟨cp, du⟩ := ck
        rw [utf16CountFrom_step u (u.length - o) o cp du hend hadv] at hc
        simp only [Option.map_eq_some'] at hc
        obtain ⟨cnt', hcnt', hc2⟩ := hc
        have hk := UTF16_ADVANCE_bounds u o _ cp du hadv
        have hcle := utf16CountFrom_le u _ _ _ hcnt'
        rw [rinstrUtf16Phase_step u 0 start fuel o (2 * (u.length - o)) found cp du
          ⟨by omega, by omega⟩ hadv]
        rw [if_neg (by omega : ¬ 2 * (u.length - o) - 2 * du < 0)]
        rw [show 2 * (u.length - o) - 2 * du = 2 * (u.length - (o+du)) from by omega]
        have hcnt'' : utf16CountFrom u (u.length - (o+du) + 1) (o+du) = some cnt' := by
          rw [utf16CountFrom_congr u (u.length - (o+du) + 1) (u.length - o) (o+du)
            (by omega) (by omega)]
          exact hcnt'
        rw [ih (o+du) cnt' (found+1) start (by omega) hcnt'' (by omega) (by omega)]
        simp only [Option.some.injEq, Sum.inr.injEq, Prod.mk.injEq]
        refine ⟨trivial, trivial, by omega⟩

theorem instr_blob_empty (h : List Nat) : instr_blob h [] 1 = some 1 := rfl

theorem instr_utf8_empty (h : List Nat) : instr_utf8 h [] 1 = some 1 := rfl

theorem instr_utf16_empty (u : List Nat) : instr_utf16 u [] 1 = some 1 := rfl

theorem rinstr_blob_empty (h : List Nat) (hlen : h.length < 2^32) :
    rinstr_blob h [] RINSTR_DEFAULT_START = some ((h.length : Int) + 1) := by
  unfold rinstr_blob RINSTR_DEFAULT_START
  rw [if_neg (by omega), if_neg (by simp)]
  rw [if_pos (by omega : (1 : Int) < 0x7FFFFFFFFFFFFFFF)]
  have hcl : rinstrClamp h.length ([] : List Nat).length 0x7FFFFFFFFFFFFFFF
      = (h.length : Int) + 1 := by
    unfold rinstrClamp
    simp only [List.length_nil, Nat.sub_zero]
    rw [if_pos (by omega)]
  rw [hcl]
  simp [rinstrBlobGo]

theorem rinstr_utf8_empty (h : List Nat) (fuel : Nat) (cnt : Nat)
    (hc : utf8CountFrom h (h.length + 1) 0 = some cnt)
    (hlen : h.length < 2^32) (hfuel : h.length + 2 ≤ fuel) :
    rinstr_utf8 fuel h [] RINSTR_DEFAULT_START = some ((cnt : Int) + 1) := by
  have hcle := utf8CountFrom_le h (h.length+1) 0 cnt hc
  unfold rinstr_utf8
  rw [if_neg (by unfold RINSTR_DEFAULT_START; omega), if_neg (by simp)]
  have hphase := rinstrUtf8Phase_empty h fuel 0 cnt 1 RINSTR_DEFAULT_START (by omega)
    (by simpa using hc) (by omega) (by unfold RINSTR_DEFAULT_START; omega)
  rw [Nat.sub_zero] at hphase
  simp only [List.length_nil]
  rw [hphase]
  show some ((1 : Int) + (cnt : Int)) = some ((cnt : Int) + 1)
  rw [Int.add_comm]

theorem rinstr_utf16_empty (u : List Nat) (fuel : Nat) (cnt : Nat)
    (hc : utf16CountFrom u (u.length + 1) 0 = some cnt)
    (hlen : u.length < 2^32) (hfuel : u.length + 2 ≤ fuel) :
    rinstr_utf16 fuel u [] RINSTR_DEFAULT_START = some ((cnt : Int) + 1) := by
  have hcle := utf16CountFrom_le u (u.length+1) 0 cnt hc
  unfold rinstr_utf16
  rw [if_neg (by unfold RINSTR_DEFAULT_START; omega), if_neg (by simp)]
  have hphase := rinstrUtf16Phase_empty u fuel 0 cnt 1 RINSTR_DEFAULT_START (by omega)
    (by simpa using hc) (by omega) (by unfold RINSTR_DEFAULT_START; omega)
  rw [Nat.sub_zero] at hphase
  simp only [List.length_nil, Nat.mul_zero]
  rw [hphase]
  show some ((1 : Int) + (cnt : Int)) = some ((cnt : Int) + 1)
  rw [Int.add_comm]

/-- C8: with an empty needle, forward search at `start = 1` returns 1 for
every haystack of any encoding, and backward search with the unbounded
default start returns the haystack's length in position units plus one: the
byte length for raw buffers, and the decoded codepoint count for UTF-8 and
UTF-16 buffers (whose sequential decode must succeed for the length to be
defined). -/
theorem C8_empty_needle (h u : List Nat) (cnt8 cnt16 : Nat) (fuel : Nat) :
    (instr_blob h [] 1 = some 1) ∧
    (h.length < 2^32 → rinstr_blob h [] RINSTR_DEFAULT_START = some ((h.length : Int) + 1)) ∧
    (instr_utf8 h [] 1 = some 1) ∧
    (utf8CountFrom h (h.length + 1) 0 = some cnt8 → h.length < 2^32 → h.length + 2 ≤ fuel →
      rinstr_utf8 fuel h [] RINSTR_DEFAULT_START = some ((cnt8 : Int) + 1)) ∧
    (instr_utf16 u [] 1 = some 1) ∧
    (utf16CountFrom u (u.length + 1) 0 = some cnt16 → u.length < 2^32 → u.length + 2 ≤ fuel →
      rinstr_utf16 fuel u [] RINSTR_DEFAULT_START = some ((cnt16 : Int) + 1)) :=
  ⟨instr_blob_empty h, rinstr_blob_empty h,
   instr_utf8_empty h, fun hc hl hf => rinstr_utf8_empty h fuel cnt8 hc hl hf,
   instr_utf16_empty u, fun hc hl hf => rinstr_utf16_empty u fuel cnt16 hc hl hf⟩

/-- Witness for C8 at concrete inputs. -/
theorem C8_empty_needle_witness :
    (instr_blob [0x61] [] 1 = some 1) ∧
    (rinstr_blob [0x61] [] RINSTR_DEFAULT_START = some ((([0x61] : List Nat).length : Int) + 1)) ∧
    (instr_utf8 [0x61] [] 1 = some 1) ∧
    (rinstr_utf8 10 [0x61] [] RINSTR_DEFAULT_START = some ((1 : Nat) + 1)) ∧
    (instr_utf16 [0x62] [] 1 = some 1) ∧
    (rinstr_utf16 10 [0x62] [] RINSTR_DEFAULT_START = some ((1 : Nat) + 1)) := by
  obtain ⟨h1, h2, h3, h4, h5, h6⟩ := C8_empty_needle [0x61] [0x62] 1 1 10
  exact ⟨h1, h2 (by norm_num), h3, h4 (by decide) (by norm_num) (by norm_num),
    h5, h6 (by decide) (by norm_num) (by norm_num)⟩

/-! ## Sequential decode failure-offset lemmas (UTF-8) -/

theorem utf8FailFrom_end (h : List Nat) (f o : Nat) (hend : h.length ≤ o) :
    utf8FailFrom h (f+1) o = some none := by
  simp only [utf8FailFrom]; rw [if_pos hend]

theorem utf8FailFrom_fail (h : List Nat) (f o : Nat) (hend : ¬ h.length ≤ o)
    (hadv : UTF8_ADVANCE h o (h.length - o) = none) :
    utf8FailFrom h (f+1) o = some (some o) := by
  simp only [utf8FailFrom]; rw [if_neg hend, hadv]

theorem utf8FailFrom_step (h : List Nat) (f o cp k : Nat) (hend : ¬ h.length ≤ o)
    (hadv : UTF8_ADVANCE h o (h.length - o) = some (cp, k)) :
    utf8FailFrom h (f+1) o = utf8FailFrom h f (o+k) := by
  simp only [utf8FailFrom]; rw [if_neg hend, hadv]

theorem utf8FailFrom_congr (h : List Nat) :
    ∀ f f' o, h.length - o < f → h.length - o < f' →
      utf8FailFrom h f o = utf8FailFrom h f' o := by
  intro f
  induction f with
  | zero => intro f' o hf _; omega
  | succ f ih =>
    intro f' o hf hf'
    obtain ⟨f'', rfl⟩ : ∃ f'', f' = f'' + 1 := ⟨f' - 1, by omega⟩
    by_cases hend : h.length ≤ o
    · rw [utf8FailFrom_end h f o hend, utf8FailFrom_end h f'' o hend]
    · cases hadv : UTF8_ADVANCE h o (h.length - o) with
      | none => rw [utf8FailFrom_fail h f o hend hadv, utf8FailFrom_fail h f'' o hend hadv]
      | some ck =>
        obtain ⟨cp, k⟩ := ck
        have hk := UTF8_ADVANCE_bounds h o _ cp k hadv
        rw [utf8FailFrom_step h f o cp k hend hadv, utf8FailFrom_step h f'' o cp k hend hadv,
          ih f'' (o+k) (by omega) (by omega)]

theorem utf8FailFrom_le (h : List Nat) :
    ∀ f o m, utf8FailFrom h f o = some (some m) → o ≤ m ∧ m < h.length := by
  intro f
  induction f with
  | zero => intro o m hf; exact absurd hf (by simp [utf8FailFrom])
  | succ f ih =>
    intro o m hf
    by_cases hend : h.length ≤ o
    · rw [utf8FailFrom_end h f o hend] at hf
      exact absurd hf (by simp)
    · cases hadv : UTF8_ADVANCE h o (h.length - o) with
      | none =>
        rw [utf8FailFrom_fail h f o hend hadv] at hf
        simp only [Option.some.injEq] at hf
        omega
      | some ck =>
        obtain ⟨cp, k⟩ := ck
        have hk := UTF8_ADVANCE_bounds h o _ cp k hadv
        rw [utf8FailFrom_step h f o cp k hend hadv] at hf
        have := ih (o+k) m hf
        omega

theorem utf8Fail_step_pres (h : List Nat) (o m : Nat)
    (hfail : utf8FailFrom h (h.length+1) o = some (some m)) (holt : o < m) :
    ∃ cp k, UTF8_ADVANCE h o (h.length - o) = some (cp, k) ∧ 1 ≤ k ∧ o + k ≤ m ∧
      utf8FailFrom h (h.length+1) (o+k) = some (some m) := by
  have hb := utf8FailFrom_le h _ o m hfail
  have hend : ¬ h.length ≤ o := by omega
  cases hadv : UTF8_ADVANCE h o (h.length - o) with
  | none =>
    rw [utf8FailFrom_fail h h.length o hend hadv] at hfail
    simp only [Option.some.injEq] at hfail
    omega
  | some ck =>
    obtain ⟨cp, k⟩ := ck
    have hk := UTF8_ADVANCE_bounds h o _ cp k hadv
    rw [utf8FailFrom_step h h.length o cp k hend hadv] at hfail
    have hfail' : utf8FailFrom h (h.length+1) (o+k) = some (some m) := by
      rw [utf8FailFrom_congr h (h.length+1) h.length (o+k) (by omega) (by omega)]
      exact hfail
    have hle := (utf8FailFrom_le h _ _ _ hfail').1
    exact ⟨cp, k, rfl, by omega, hle, hfail'⟩

theorem utf8Fail_at (h : List Nat) (m : Nat)
    (hfail : utf8FailFrom h (h.length+1) m = some (some m)) :
    UTF8_ADVANCE h m (h.length - m) = none := by
  have hb := utf8FailFrom_le h _ m m hfail
  have hend : ¬ h.length ≤ m := by omega
  cases hadv : UTF8_ADVANCE h m (h.length - m) with
  | none => rfl
  | some ck =>
    obtain ⟨cp, k⟩ := ck
    have hk := UTF8_ADVANCE_bounds h m _ cp k hadv
    rw [utf8FailFrom_step h h.length m cp k hend hadv] at hfail
    have := (utf8FailFrom_le h _ _ _ hfail).1
    omega

/-! ## Step equations for the forward UTF-8 engine -/

theorem instrUtf8Phase_exit (h : List Nat) (nl : Nat) (start : Int) (f o ss : Nat)
    (found : Int) (hcond : ¬ (found < start ∧ nl < ss)) :
    instrUtf8Phase h nl start (f+1) o ss found = some (Sum.inr (o, ss, found)) := by
  simp only [instrUtf8Phase]; rw [if_neg hcond]

theorem instrUtf8Phase_fail (h : List Nat) (nl : Nat) (start : Int) (f o ss : Nat)
    (found : Int) (hcond : found < start ∧ nl < ss)
    (hadv : UTF8_ADVANCE h o ss = none) :
    instrUtf8Phase h nl start (f+1) o ss found = some (Sum.inl (-1)) := by
  simp only [instrUtf8Phase]; rw [if_pos hcond, hadv]

theorem instrUtf8Phase_advance (h : List Nat) (nl : Nat) (start : Int) (f o ss : Nat)
    (found : Int) (cp k : Nat) (hcond : found < start ∧ nl < ss)
    (hadv : UTF8_ADVANCE h o ss = some (cp, k)) :
    instrUtf8Phase h nl start (f+1) o ss found
      = instrUtf8Phase h nl start f (o+k) (ss-k) (found+1) := by
  simp only [instrUtf8Phase]; rw [if_pos hcond, hadv]

theorem instrUtf8LoopM_stepA (h n : List Nat) (skips : Nat → Nat) (f o ss : Nat)
    (found : Int) (next cp k : Nat) (hfit : n.length ≤ ss) (hnext : next ≤ o)
    (hmem : memEq h o n = false)
    (hskip : ¬ (ss - skips (h.getD (o + n.length - 1) 0) < n.length))
    (hadv : UTF8_ADVANCE h o ss = some (cp, k)) :
    instrUtf8LoopM h n skips (f+1) o ss found next
      = instrUtf8LoopM h n skips f (o+k) (ss-k) (found+1)
          (o + skips (h.getD (o + n.length - 1) 0)) := by
  simp only [instrUtf8LoopM]
  rw [if_pos hfit, if_pos hnext, if_neg (by simp [hmem]), if_neg hskip, hadv]

theorem instrUtf8LoopM_failA (h n : List Nat) (skips : Nat → Nat) (f o ss : Nat)
    (found : Int) (next : Nat) (hfit : n.length ≤ ss) (hnext : next ≤ o)
    (hmem : memEq h o n = false)
    (hskip : ¬ (ss - skips (h.getD (o + n.length - 1) 0) < n.length))
    (hadv : UTF8_ADVANCE h o ss = none) :
    instrUtf8LoopM h n skips (f+1) o ss found next = some (-1) := by
  simp only [instrUtf8LoopM]
  rw [if_pos hfit, if_pos hnext, if_neg (by simp [hmem]), if_neg hskip, hadv]

theorem instrUtf8LoopM_stepB (h n : List Nat) (skips : Nat → Nat) (f o ss : Nat)
    (found : Int) (next cp k : Nat) (hfit : n.length ≤ ss) (hnext : ¬ next ≤ o)
    (hadv : UTF8_ADVANCE h o ss = some (cp, k)) :
    instrUtf8LoopM h n skips (f+1) o ss found next
      = instrUtf8LoopM h n skips f (o+k) (ss-k) (found+1) next := by
  simp only [instrUtf8LoopM]
  rw [if_pos hfit, if_neg hnext, hadv]

theorem instrUtf8LoopM_failB (h n : List Nat) (skips : Nat → Nat) (f o ss : Nat)
    (found : Int) (next : Nat) (hfit : n.length ≤ ss) (hnext : ¬ next ≤ o)
    (hadv : UTF8_ADVANCE h o ss = none) :
    instrUtf8LoopM h n skips (f+1) o ss found next = some (-1) := by
  simp only [instrUtf8LoopM]
  rw [if_pos hfit, if_neg hnext, hadv]

theorem instrUtf8Loop1_step (h : List Nat) (a : Nat) (f o ss : Nat) (found : Int)
    (cp k : Nat) (hss : 0 < ss) (hne : (h.getD o 0 == a) = false)
    (hadv : UTF8_ADVANCE h o ss = some (cp, k)) :
    instrUtf8Loop1 h a (f+1) o ss found = instrUtf8Loop1 h a f (o+k) (ss-k) (found+1) := by
  simp only [instrUtf8Loop1]
  rw [if_pos hss, if_neg (by rw [hne]; exact Bool.false_ne_true), hadv]

theorem instrUtf8Loop1_fail (h : List Nat) (a : Nat) (f o ss : Nat) (found : Int)
    (hss : 0 < ss) (hne : (h.getD o 0 == a) = false)
    (hadv : UTF8_ADVANCE h o ss = none) :
    instrUtf8Loop1 h a (f+1) o ss found = some (-1) := by
  simp only [instrUtf8Loop1]
  rw [if_pos hss, if_neg (by rw [hne]; exact Bool.false_ne_true), hadv]

/-! ## C6 (amended), UTF-8 side -/

theorem memEq_false_of_big (h n : List Nat) (hne : n ≠ []) (o : Nat)
    (ho : h.length < o + n.length) : memEq h o n = false := by
  by_contra hcon
  rw [Bool.not_eq_false] at hcon
  exact absurd (memEq_bound h n o hne hcon) (by omega)

theorem instrUtf8Phase_malformed (h : List Nat) (nl : Nat) (start : Int) (m : Nat)
    (hroom : m + 2*nl ≤ h.length) (hnl : 1 ≤ nl) :
    ∀ fuel o (found : Int), utf8FailFrom h (h.length+1) o = some (some m) → m - o < fuel →
      instrUtf8Phase h nl start fuel o (h.length - o) found = some (Sum.inl (-1)) ∨
      ∃ o' found', instrUtf8Phase h nl start fuel o (h.length - o) found
          = some (Sum.inr (o', h.length - o', found')) ∧
          utf8FailFrom h (h.length+1) o' = some (some m) ∧ ¬ found' < start := by
  intro fuel
  induction fuel with
  | zero => intro o found hfail hf; omega
  | succ fuel ih =>
    intro o found hfail hf
    have hb := utf8FailFrom_le h _ o m hfail
    by_cases hcond : found < start ∧ nl < h.length - o
    · rcases eq_or_lt_of_le hb.1 with rfl | holt
      · left
        exact instrUtf8Phase_fail h nl start fuel o _ found hcond (utf8Fail_at h o hfail)
      · obtain ⟨cp, k, hadv, hk1, hkm, hfail'⟩ := utf8Fail_step_pres h o m hfail holt
        rw [instrUtf8Phase_advance h nl start fuel o _ found cp k hcond hadv,
          show h.length - o - k = h.length - (o+k) from by omega]
        exact ih (o+k) (found+1) hfail' (by omega)
    · right
      refine ⟨o, found, instrUtf8Phase_exit h nl start fuel o _ found hcond, hfail, ?_⟩
      intro hlt
      exact hcond ⟨hlt, by omega⟩

theorem instrUtf8LoopM_malformed (h n : List Nat) (m : Nat) (hm2 : 2 ≤ n.length)
    (hroom : m + 2 * n.length ≤ h.length)
    (hnofit : ∀ o', memEq h o' n = false) :
    ∀ fuel o (found : Int) next, utf8FailFrom h (h.length + 1) o = some (some m) →
      m - o < fuel →
      instrUtf8LoopM h n (fbmh_setup n 0) fuel o (h.length - o) found next = some (-1) := by
  intro fuel
  induction fuel with
  | zero => intro o found next hfail hf; omega
  | succ fuel ih =>
    intro o found next hfail hf
    have hb := utf8FailFrom_le h _ o m hfail
    have hfit : n.length ≤ h.length - o := by omega
    have hskipb : fbmh_setup n 0 (h.getD (o + n.length - 1) 0) ≤ n.length := fbmh0_le n _
    by_cases hnext : next ≤ o
    · rcases eq_or_lt_of_le hb.1 with rfl | holt
      · exact instrUtf8LoopM_failA h n _ fuel o _ found next hfit hnext (hnofit o)
          (by omega) (utf8Fail_at h o hfail)
      · obtain ⟨cp, k, hadv, hk1, hkm, hfail'⟩ := utf8Fail_step_pres h o m hfail holt
        rw [instrUtf8LoopM_stepA h n _ fuel o _ found next cp k hfit hnext (hnofit o)
          (by omega) hadv,
          show h.length - o - k = h.length - (o+k) from by omega]
        exact ih (o+k) (found+1) _ hfail' (by omega)
    · rcases eq_or_lt_of_le hb.1 with rfl | holt
      · exact instrUtf8LoopM_failB h n _ fuel o _ found next hfit hnext (utf8Fail_at h o hfail)
      · obtain ⟨cp, k, hadv, hk1, hkm, hfail'⟩ := utf8Fail_step_pres h o m hfail holt
        rw [instrUtf8LoopM_stepB h n _ fuel o _ found next cp k hfit hnext hadv,
          show h.length - o - k = h.length - (o+k) from by omega]
        exact ih (o+k) (found+1) _ hfail' (by omega)

theorem instrUtf8Loop1_malformed (h : List Nat) (a : Nat) (m : Nat)
    (hroom : m + 2 ≤ h.length)
    (hnofit : ∀ o', memEq h o' [a] = false) :
    ∀ fuel o (found : Int), utf8FailFrom h (h.length + 1) o = some (some m) →
      m - o < fuel →
      instrUtf8Loop1 h a fuel o (h.length - o) found = some (-1) := by
  intro fuel
  induction fuel with
  | zero => intro o found hfail hf; omega
  | succ fuel ih =>
    intro o found hfail hf
    have hb := utf8FailFrom_le h _ o m hfail
    have hss : 0 < h.length - o := by omega
    have hbyte : (h.getD o 0 == a) = false := by
      have := hnofit o
      rwa [memEq_single h o a (by omega)] at this
    rcases eq_or_lt_of_le hb.1 with rfl | holt
    · exact instrUtf8Loop1_fail h a fuel o _ found hss hbyte (utf8Fail_at h o hfail)
    · obtain ⟨cp, k, hadv, hk1, hkm, hfail'⟩ := utf8Fail_step_pres h o m hfail holt
      rw [instrUtf8Loop1_step h a fuel o _ found cp k hss hbyte hadv,
        show h.length - o - k = h.length - (o+k) from by omega]
      exact ih (o+k) (found+1) hfail' (by omega)

theorem instr_utf8_malformed (h n : List Nat) (start : Int) (m : Nat)
    (hfail : utf8FailFrom h (h.length + 1) 0 = some (some m))
    (hroom : m + 2 * n.length ≤ h.length)
    (hnofit : ∀ o, memEq h o n = false) :
    instr_utf8 h n start = some (-1) := by
  have hne : n ≠ [] := by
    intro he
    have := hnofit 0
    rw [he, memEq_nil] at this
    cases this
  have hnl : 1 ≤ n.length := List.length_pos.mpr hne
  have hb := utf8FailFrom_le h _ 0 m hfail
  unfold instr_utf8
  rw [if_neg (by omega : ¬ h.length < n.length)]
  have hph := instrUtf8Phase_malformed h n.length start m hroom hnl (h.length+2) 0 1
    hfail (by omega)
  rw [Nat.sub_zero] at hph
  rcases hph with hml | ⟨o', found', hphase, hfail', hge⟩
  · rw [hml]
  · rw [hphase]
    have hb' := utf8FailFrom_le h _ o' m hfail'
    show (if found' < start then some 0
      else if n.length ≤ 0 then some found'
      else if 1 < n.length then
        instrUtf8LoopM h n (fbmh_setup n 0) (h.length+2) o' (h.length - o') found' o'
      else instrUtf8Loop1 h (n.getD 0 0) (h.length+2) o' (h.length - o') found') = some (-1)
    rw [if_neg hge, if_neg (by omega : ¬ n.length ≤ 0)]
    by_cases h2 : 1 < n.length
    · rw [if_pos h2]
      exact instrUtf8LoopM_malformed h n m (by omega) hroom hnofit (h.length+2) o' found' o'
        hfail' (by omega)
    · rw [if_neg h2]
      obtain ⟨a, rfl⟩ := List.length_eq_one.mp (by omega : n.length = 1)
      rw [List.getD_cons_zero]
      refine instrUtf8Loop1_malformed h a m (by omega) ?_ (h.length+2) o' found' hfail'
        (by omega)
      intro o'
      have := hnofit o'
      simpa using this

/-! ## Sequential decode failure-offset lemmas (UTF-16) -/

theorem utf16FailFrom_end (u : List Nat) (f o : Nat) (hend : u.length ≤ o) :
    utf16FailFrom u (f+1) o = some none := by
  simp only [utf16FailFrom]; rw [if_pos hend]

theorem utf16FailFrom_fail (u : List Nat) (f o : Nat) (hend : ¬ u.length ≤ o)
    (hadv : UTF16_ADVANCE u o (2 * (u.length - o)) = none) :
    utf16FailFrom u (f+1) o = some (some o) := by
  simp only [utf16FailFrom]; rw [if_neg hend, hadv]

theorem utf16FailFrom_step (u : List Nat) (f o cp du : Nat) (hend : ¬ u.length ≤ o)
    (hadv : UTF16_ADVANCE u o (2 * (u.length - o)) = some (cp, du)) :
    utf16FailFrom u (f+1) o = utf16FailFrom u f (o+du) := by
  simp only [utf16FailFrom]; rw [if_neg hend, hadv]

theorem utf16FailFrom_congr (u : List Nat) :
    ∀ f f' o, u.length - o < f → u.length - o < f' →
      utf16FailFrom u f o = utf16FailFrom u f' o := by
  intro f
  induction f with
  | zero => intro f' o hf _; omega
  | succ f ih =>
    intro f' o hf hf'
    obtain ⟨f'', rfl⟩ : ∃ f'', f' = f'' + 1 := ⟨f' - 1, by omega⟩
    by_cases hend : u.length ≤ o
    · rw [utf16FailFrom_end u f o hend, utf16FailFrom_end u f'' o hend]
    · cases hadv : UTF16_ADVANCE u o (2 * (u.length - o)) with
      | none => rw [utf16FailFrom_fail u f o hend hadv, utf16FailFrom_fail u f'' o hend hadv]
      | some ck =>
        obtain ⟨cp, du⟩ := ck
        have hk := UTF16_ADVANCE_bounds u o _ cp du hadv
        rw [utf16FailFrom_step u f o cp du hend hadv,
          utf16FailFrom_step u f'' o cp du hend hadv, ih f'' (o+du) (by omega) (by omega)]

theorem utf16FailFrom_le (u : List Nat) :
    ∀ f o m, utf16FailFrom u f o = some (some m) → o ≤ m ∧ m < u.length := by
  intro f
  induction f with
  | zero => intro o m hf; exact absurd hf (by simp [utf16FailFrom])
  | succ f ih =>
    intro o m hf
    by_cases hend : u.length ≤ o
    · rw [utf16FailFrom_end u f o hend] at hf
      exact absurd hf (by simp)
    · cases hadv : UTF16_ADVANCE u o (2 * (u.length - o)) with
      | none =>
        rw [utf16FailFrom_fail u f o hend hadv] at hf
        simp only [Option.some.injEq] at hf
        omega
      | some ck =>
        obtain ⟨cp, du⟩ := ck
        have hk := UTF16_ADVANCE_bounds u o _ cp du hadv
        rw [utf16FailFrom_step u f o cp du hend hadv] at hf
        have := ih (o+du) m hf
        omega

theorem utf16Fail_step_pres (u : List Nat) (o m : Nat)
    (hfail : utf16FailFrom u (u.length+1) o = some (some m)) (holt : o < m) :
    ∃ cp du, UTF16_ADVANCE u o (2 * (u.length - o)) = some (cp, du) ∧ 1 ≤ du ∧
      o + du ≤ m ∧ utf16FailFrom u (u.length+1) (o+du) = some (some m) := by
  have hb := utf16FailFrom_le u _ o m hfail
  have hend : ¬ u.length ≤ o := by omega
  cases hadv : UTF16_ADVANCE u o (2 * (u.length - o)) with
  | none =>
    rw [utf16FailFrom_fail u u.length o hend hadv] at hfail
    simp only [Option.some.injEq] at hfail
    omega
  | some ck =>
    obtain ⟨cp, du⟩ := ck
    have hk := UTF16_ADVANCE_bounds u o _ cp du hadv
    rw [utf16FailFrom_step u u.length o cp du hend hadv] at hfail
    have hfail' : utf16FailFrom u (u.length+1) (o+du) = some (some m) := by
      rw [utf16FailFrom_congr u (u.length+1) u.length (o+du) (by omega) (by omega)]
      exact hfail
    have hle := (utf16FailFrom_le u _ _ _ hfail').1
    exact ⟨cp, du, rfl, by omega, hle, hfail'⟩

theorem utf16Fail_at (u : List Nat) (m : Nat)
    (hfail : utf16FailFrom u (u.length+1) m = some (some m)) :
    UTF16_ADVANCE u m (2 * (u.length - m)) = none := by
  have hb := utf16FailFrom_le u _ m m hfail
  have hend : ¬ u.length ≤ m := by omega
  cases hadv : UTF16_ADVANCE u m (2 * (u.length - m)) with
  | none => rfl
  | some ck =>
    obtain ⟨cp, du⟩ := ck
    have hk := UTF16_ADVANCE_bounds u m _ cp du hadv
    rw [utf16FailFrom_step u u.length m cp du hend hadv] at hfail
    have := (utf16FailFrom_le u _ _ _ hfail).1
    omega

/-! ## The masked 16-bit skip table stays within the needle's byte length -/

theorem u16bytes_length (u : List Nat) : (u16bytes u).length = 2 * u.length := by
  induction u with
  | nil => rfl
  | cons w t ih =>
    show (u16lo w :: u16hi w :: u16bytes t).length = 2 * (t.length + 1)
    simp only [List.length_cons, ih]
    omega

theorem and_mask_even (x : Nat) : (x &&& (2^32 - 1 - 1)) % 2 = 0 := by
  have h1 : (x &&& (2^32 - 1 - 1)).testBit 0 = false := by
    rw [Nat.testBit_land]
    have h2 : (2^32 - 1 - 1 : Nat).testBit 0 = false := by
      rw [Nat.testBit_zero]
      norm_num
    rw [h2, Bool.and_false]
  rw [Nat.testBit_zero] at h1
  simp only [decide_eq_false_iff_not] at h1
  omega

theorem fbmh_setup_one (l : List Nat) : fbmh_setup l 1 = fun c =>
    ((((List.range (l.length - 1)).foldl
        (fun t ix => Function.update t (l.getD ix 0) (l.length - 1 - ix))
        (fun _ => l.length)) c + 1) % 2^32) &&& (2^32 - 1 - 1) := rfl

theorem fbmh1_le (l : List Nat) (hlen : l.length + 1 < 2^32)
    (heven : l.length % 2 = 0) (c : Nat) :
    fbmh_setup l 1 c ≤ l.length := by
  rw [fbmh_setup_one]
  have hble := fbmhF_le l (l.length - 1) c
  set v := (List.range (l.length - 1)).foldl
    (fun t ix => Function.update t (l.getD ix 0) (l.length - 1 - ix)) (fun _ => l.length) c
    with hv
  show ((v + 1) % 2^32) &&& (2^32 - 1 - 1) ≤ l.length
  rw [Nat.mod_eq_of_lt (by omega)]
  have hle := Nat.and_le_left (n := v+1) (m := 2^32 - 1 - 1)
  have hev := and_mask_even (v+1)
  omega

/-! ## Step equations for the forward UTF-16 engine -/

theorem instrUtf16Phase_exit (u : List Nat) (nlB : Nat) (start : Int) (f o ss : Nat)
    (found : Int) (hcond : ¬ (found < start ∧ nlB < ss)) :
    instrUtf16Phase u nlB start (f+1) o ss found = some (Sum.inr (o, ss, found)) := by
  simp only [instrUtf16Phase]; rw [if_neg hcond]

theorem instrUtf16Phase_fail (u : List Nat) (nlB : Nat) (start : Int) (f o ss : Nat)
    (found : Int) (hcond : found < start ∧ nlB < ss)
    (hadv : UTF16_ADVANCE u o ss = none) :
    instrUtf16Phase u nlB start (f+1) o ss found = some (Sum.inl (-1)) := by
  simp only [instrUtf16Phase]; rw [if_pos hcond, hadv]

theorem instrUtf16Phase_advance (u : List Nat) (nlB : Nat) (start : Int) (f o ss : Nat)
    (found : Int) (cp du : Nat) (hcond : found < start ∧ nlB < ss)
    (hadv : UTF16_ADVANCE u o ss = some (cp, du)) :
    instrUtf16Phase u nlB start (f+1) o ss found
      = instrUtf16Phase u nlB start f (o+du) (ss-2*du) (found+1) := by
  simp only [instrUtf16Phase]; rw [if_pos hcond, hadv]

theorem instrUtf16LoopM_stepA (u nu : List Nat) (skips : Nat → Nat) (f o ss : Nat)
    (found : Int) (next cp du : Nat) (hfit : 2 * nu.length ≤ ss) (hnext : next ≤ o)
    (hmem : memEqU u o nu = false)
    (hskip : ¬ (ss - skips (u16byteAt u (2*o + 2*nu.length - 1)) < 2 * nu.length))
    (hadv : UTF16_ADVANCE u o ss = some (cp, du)) :
    instrUtf16LoopM u nu skips (f+1) o ss found next
      = instrUtf16LoopM u nu skips f (o+du) (ss-2*du) (found+1)
          (o + skips (u16byteAt u (2*o + 2*nu.length - 1)) / 2) := by
  simp only [instrUtf16LoopM]
  rw [if_pos hfit, if_pos hnext, if_neg (by rw [hmem]; exact Bool.false_ne_true),
    if_neg hskip, hadv]

theorem instrUtf16LoopM_failA (u nu : List Nat) (skips : Nat → Nat) (f o ss : Nat)
    (found : Int) (next : Nat) (hfit : 2 * nu.length ≤ ss) (hnext : next ≤ o)
    (hmem : memEqU u o nu = false)
    (hskip : ¬ (ss - skips (u16byteAt u (2*o + 2*nu.length - 1)) < 2 * nu.length))
    (hadv : UTF16_ADVANCE u o ss = none) :
    instrUtf16LoopM u nu skips (f+1) o ss found next = some (-1) := by
  simp only [instrUtf16LoopM]
  rw [if_pos hfit, if_pos hnext, if_neg (by rw [hmem]; exact Bool.false_ne_true),
    if_neg hskip, hadv]

theorem instrUtf16LoopM_stepB (u nu : List Nat) (skips : Nat → Nat) (f o ss : Nat)
    (found : Int) (next cp du : Nat) (hfit : 2 * nu.length ≤ ss) (hnext : ¬ next ≤ o)
    (hadv : UTF16_ADVANCE u o ss = some (cp, du)) :
    instrUtf16LoopM u nu skips (f+1) o ss found next
      = instrUtf16LoopM u nu skips f (o+du) (ss-2*du) (found+1) next := by
  simp only [instrUtf16LoopM]
  rw [if_pos hfit, if_neg hnext, hadv]

theorem instrUtf16LoopM_failB (u nu : List Nat) (skips : Nat → Nat) (f o ss : Nat)
    (found : Int) (next : Nat) (hfit : 2 * nu.length ≤ ss) (hnext : ¬ next ≤ o)
    (hadv : UTF16_ADVANCE u o ss = none) :
    instrUtf16LoopM u nu skips (f+1) o ss found next = some (-1) := by
  simp only [instrUtf16LoopM]
  rw [if_pos hfit, if_neg hnext, hadv]

theorem instrUtf16Loop1_step (u : List Nat) (a : Nat) (f o ss : Nat) (found : Int)
    (cp du : Nat) (hss : 0 < ss) (hne : (u.getD o 0 == a) = false)
    (hadv : UTF16_ADVANCE u o ss = some (cp, du)) :
    instrUtf16Loop1 u a (f+1) o ss found = instrUtf16Loop1 u a f (o+du) (ss-2*du) (found+1) := by
  simp only [instrUtf16Loop1]
  rw [if_pos hss, if_neg (by rw [hne]; exact Bool.false_ne_true), hadv]

theorem instrUtf16Loop1_fail (u : List Nat) (a : Nat) (f o ss : Nat) (found : Int)
    (hss : 0 < ss) (hne : (u.getD o 0 == a) = false)
    (hadv : UTF16_ADVANCE u o ss = none) :
    instrUtf16Loop1 u a (f+1) o ss found = some (-1) := by
  simp only [instrUtf16Loop1]
  rw [if_pos hss, if_neg (by rw [hne]; exact Bool.false_ne_true), hadv]

/-! ## C6 (amended), UTF-16 side -/

theorem memEqU_eq (u : List Nat) (o : Nat) (nu : List Nat) :
    memEqU u o nu = memEq u o nu := rfl

theorem instrUtf16Phase_malformed (u : List Nat) (nlB : Nat) (start : Int) (m : Nat)
    (hroom : 2*m + 2*nlB ≤ 2*u.length) (hnl : 1 ≤ nlB) :
    ∀ fuel o (found : Int), utf16FailFrom u (u.length+1) o = some (some m) → m - o < fuel →
      instrUtf16Phase u nlB start fuel o (2 * (u.length - o)) found = some (Sum.inl (-1)) ∨
      ∃ o' found', instrUtf16Phase u nlB start fuel o (2 * (u.length - o)) found
          = some (Sum.inr (o', 2 * (u.length - o'), found')) ∧
          utf16FailFrom u (u.length+1) o' = some (some m) ∧ ¬ found' < start := by
  intro fuel
  induction fuel with
  | zero => intro o found hfail hf; omega
  | succ fuel ih =>
    intro o found hfail hf
    have hb := utf16FailFrom_le u _ o m hfail
    by_cases hcond : found < start ∧ nlB < 2 * (u.length - o)
    · rcases eq_or_lt_of_le hb.1 with rfl | holt
      · left
        exact instrUtf16Phase_fail u nlB start fuel o _ found hcond (utf16Fail_at u o hfail)
      · obtain ⟨cp, du, hadv, hk1, hkm, hfail'⟩ := utf16Fail_step_pres u o m hfail holt
        rw [instrUtf16Phase_advance u nlB start fuel o _ found cp du hcond hadv,
          show 2 * (u.length - o) - 2*du = 2 * (u.length - (o+du)) from by omega]
        exact ih (o+du) (found+1) hfail' (by omega)
    · right
      refine ⟨o, found, instrUtf16Phase_exit u nlB start fuel o _ found hcond, hfail, ?_⟩
      intro hlt
      exact hcond ⟨hlt, by omega⟩

theorem instrUtf16LoopM_malformed (u nu : List Nat) (m : Nat) (hm2 : 2 ≤ nu.length)
    (hnu32 : nu.length < 2^31)
    (hroom : m + 2 * nu.length ≤ u.length)
    (hnofit : ∀ o', memEqU u o' nu = false) :
    ∀ fuel o (found : Int) next, utf16FailFrom u (u.length + 1) o = some (some m) →
      m - o < fuel →
      instrUtf16LoopM u nu (fbmh_setup (u16bytes nu) 1) fuel o (2 * (u.length - o)) found next
        = some (-1) := by
  intro fuel
  induction fuel with
  | zero => intro o found next hfail hf; omega
  | succ fuel ih =>
    intro o found next hfail hf
    have hb := utf16FailFrom_le u _ o m hfail
    have hfit : 2 * nu.length ≤ 2 * (u.length - o) := by omega
    have hskipb : fbmh_setup (u16bytes nu) 1 (u16byteAt u (2*o + 2*nu.length - 1))
        ≤ (u16bytes nu).length := by
      refine fbmh1_le (u16bytes nu) ?_ ?_ _ <;> rw [u16bytes_length] <;> omega
    rw [u16bytes_length] at hskipb
    by_cases hnext : next ≤ o
    · rcases eq_or_lt_of_le hb.1 with rfl | holt
      · exact instrUtf16LoopM_failA u nu _ fuel o _ found next hfit hnext (hnofit o)
          (by omega) (utf16Fail_at u o hfail)
      · obtain ⟨cp, du, hadv, hk1, hkm, hfail'⟩ := utf16Fail_step_pres u o m hfail holt
        rw [instrUtf16LoopM_stepA u nu _ fuel o _ found next cp du hfit hnext (hnofit o)
          (by omega) hadv,
          show 2 * (u.length - o) - 2*du = 2 * (u.length - (o+du)) from by omega]
        exact ih (o+du) (found+1) _ hfail' (by omega)
    · rcases eq_or_lt_of_le hb.1 with rfl | holt
      · exact instrUtf16LoopM_failB u nu _ fuel o _ found next hfit hnext
          (utf16Fail_at u o hfail)
      · obtain ⟨cp, du, hadv, hk1, hkm, hfail'⟩ := utf16Fail_step_pres u o m hfail holt
        rw [instrUtf16LoopM_stepB u nu _ fuel o _ found next cp du hfit hnext hadv,
          show 2 * (u.length - o) - 2*du = 2 * (u.length - (o+du)) from by omega]
        exact ih (o+du) (found+1) _ hfail' (by omega)

theorem instrUtf16Loop1_malformed (u : List Nat) (a : Nat) (m : Nat)
    (hroom : m + 2 ≤ u.length)
    (hnofit : ∀ o', memEqU u o' [a] = false) :
    ∀ fuel o (found : Int), utf16FailFrom u (u.length + 1) o = some (some m) →
      m - o < fuel →
      instrUtf16Loop1 u a fuel o (2 * (u.length - o)) found = some (-1) := by
  intro fuel
  induction fuel with
  | zero => intro o found hfail hf; omega
  | succ fuel ih =>
    intro o found hfail hf
    have hb := utf16FailFrom_le u _ o m hfail
    have hss : 0 < 2 * (u.length - o) := by omega
    have hbyte : (u.getD o 0 == a) = false := by
      have := hnofit o
      rw [memEqU_eq] at this
      rwa [memEq_single u o a (by omega)] at this
    rcases eq_or_lt_of_le hb.1 with rfl | holt
    · exact instrUtf16Loop1_fail u a fuel o _ found hss hbyte (utf16Fail_at u o hfail)
    · obtain ⟨cp, du, hadv, hk1, hkm, hfail'⟩ := utf16Fail_step_pres u o m hfail holt
      rw [instrUtf16Loop1_step u a fuel o _ found cp du hss hbyte hadv,
        show 2 * (u.length - o) - 2*du = 2 * (u.length - (o+du)) from by omega]
      exact ih (o+du) (found+1) hfail' (by omega)

theorem instr_utf16_malformed (u nu : List Nat) (start : Int) (m : Nat)
    (hfail : utf16FailFrom u (u.length + 1) 0 = some (some m))
    (hroom : m + 2 * nu.length ≤ u.length) (hnu32 : nu.length < 2^31)
    (hnofit : ∀ o, memEqU u o nu = false) :
    instr_utf16 u nu start = some (-1) := by
  have hne : nu ≠ [] := by
    intro he
    have := hnofit 0
    rw [he, memEqU_eq, memEq_nil] at this
    cases this
  have hnl : 1 ≤ nu.length := List.length_pos.mpr hne
  have hb := utf16FailFrom_le u _ 0 m hfail
  unfold instr_utf16
  rw [if_neg (by omega : ¬ 2 * u.length < 2 * nu.length)]
  have hph := instrUtf16Phase_malformed u (2 * nu.length) start m (by omega) (by omega)
    (u.length+2) 0 1 hfail (by omega)
  rw [Nat.sub_zero] at hph
  rcases hph with hml | ⟨o', found', hphase, hfail', hge⟩
  · rw [hml]
  · rw [hphase]
    have hb' := utf16FailFrom_le u _ o' m hfail'
    show (if found' < start then some 0
      else if 2 * nu.length ≤ 0 then some found'
      else if 2 < 2 * nu.length then
        instrUtf16LoopM u nu (fbmh_setup (u16bytes nu) 1) (u.length+2) o'
          (2 * (u.length - o')) found' o'
      else instrUtf16Loop1 u (nu.getD 0 0) (u.length+2) o' (2 * (u.length - o')) found')
      = some (-1)
    rw [if_neg hge, if_neg (by omega : ¬ 2 * nu.length ≤ 0)]
    by_cases h2 : 2 < 2 * nu.length
    · rw [if_pos h2]
      exact instrUtf16LoopM_malformed u nu m (by omega) hnu32 hroom hnofit (u.length+2) o'
        found' o' hfail' (by omega)
    · rw [if_neg h2]
      obtain ⟨a, rfl⟩ := List.length_eq_one.mp (by omega : nu.length = 1)
      rw [List.getD_cons_zero]
      refine instrUtf16Loop1_malformed u a m (by omega) ?_ (u.length+2) o' found' hfail'
        (by omega)
      intro o'
      have := hnofit o'
      simpa using this

/-! ## Claim theorems: C6 -/

/-- C6 counterexample: the claim fails as stated.  The UTF-8 haystack
`61 62 80` contains malformed content at byte offset 2 (at/after the default
start) and the needle `78 79` matches nowhere, yet `instr_utf8` returns 0,
not `-1`: after the first window mismatch the Horspool skip proves that no
further window fits (`stacksize - skip < needlesize`) and the engine returns
Zero before its decode cursor ever reaches the malformed byte. -/
theorem C6_counterexample :
    utf8FailFrom [0x61,0x62,0x80] 4 0 = some (some 2) ∧
    (∀ o, memEq [0x61,0x62,0x80] o [0x78,0x79] = false) ∧
    instr_utf8 [0x61,0x62,0x80] [0x78,0x79] 1 = some 0 := by
  refine ⟨by decide, ?_, by decide⟩
  intro o
  match o with
  | 0 => decide
  | 1 => decide
  | (o+2) => exact memEq_false_of_big _ _ (by decide) _ (by simp only [List.length_cons, List.length_nil]; omega)

/-- C6 amended: for every UTF-8 (resp. UTF-16) haystack whose sequential
decode from the buffer start first fails at unit offset `m`, where at least
two needle lengths of units remain past `m` (`m + 2·needle-units ≤ haystack
units`), and every needle that matches at no offset, the forward engine
returns `MalformedInput` (-1) for every start value.  (When the malformed
content lies closer to the end than that, the engine may instead return Zero
once the skip logic rules out any remaining fit, as the counterexample
shows.) -/
theorem C6_amended :
    (∀ (h n : List Nat) (start : Int) (m : Nat),
        utf8FailFrom h (h.length + 1) 0 = some (some m) →
        m + 2 * n.length ≤ h.length →
        (∀ o, memEq h o n = false) →
        instr_utf8 h n start = some (-1)) ∧
    (∀ (u nu : List Nat) (start : Int) (m : Nat),
        utf16FailFrom u (u.length + 1) 0 = some (some m) →
        m + 2 * nu.length ≤ u.length → nu.length < 2^31 →
        (∀ o, memEqU u o nu = false) →
        instr_utf16 u nu start = some (-1)) :=
  ⟨fun h n start m hfail hroom hnofit => instr_utf8_malformed h n start m hfail hroom hnofit,
   fun u nu start m hfail hroom hnu hnofit =>
     instr_utf16_malformed u nu start m hfail hroom hnu hnofit⟩

/-- Witness for the amended C6 at concrete inputs. -/
theorem C6_amended_witness :
    instr_utf8 [0x80,0x61,0x61,0x61,0x61] [0x78,0x79] 1 = some (-1) ∧
    instr_utf16 [0xD800,0x61,0x61,0x61,0x61] [0x78,0x79] 1 = some (-1) := by
  constructor
  · refine C6_amended.1 [0x80,0x61,0x61,0x61,0x61] [0x78,0x79] 1 0 (by decide) (by decide) ?_
    intro o
    match o with
    | 0 => decide
    | 1 => decide
    | 2 => decide
    | 3 => decide
    | (o+4) => exact memEq_false_of_big _ _ (by decide) _ (by simp only [List.length_cons, List.length_nil]; omega)
  · refine C6_amended.2 [0xD800,0x61,0x61,0x61,0x61] [0x78,0x79] 1 0 (by decide) (by decide)
      (by norm_num) ?_
    intro o
    match o with
    | 0 => decide
    | 1 => decide
    | 2 => decide
    | 3 => decide
    | (o+4) =>
      rw [memEqU_eq]
      exact memEq_false_of_big _ _ (by decide) _ (by simp only [List.length_cons, List.length_nil]; omega)

/-! ## Claim theorems: C9 -/

/-- C9 counterexample: the claim that a mixed BLOB/TEXT argument pair is
rejected with the usage error fails on the code.  With a BLOB haystack and a
TEXT needle, `instr_func` (UTF-8 registration) does not reach its `confused`
arm: the dispatch only checks for BLOB∧BLOB and otherwise falls through to
the text path, where both values are coerced to text and searched — here
returning the integer result 1. -/
theorem C9_counterexample :
    instrFunc8 [SqlValue.vblob [0x61], SqlValue.vtext [0x61]]
      = some (AdapterResult.rInt 1) ∧
    AdapterResult.rInt 1 ≠ AdapterResult.rErrConfused :=
  ⟨by decide, by decide⟩

/-- C9 amended: a call in which exactly one of the two arguments is a BLOB
and the other TEXT is not rejected: under the UTF-8 registration both values
are coerced to their text bytes and handled by the UTF-8 text search path
(whose result is an integer or the encoding error, never the usage error);
the distinguished usage error arises only for calls with fewer than two
arguments. -/
theorem C9_amended :
    (∀ (hb nt : List Nat) (fuel : Nat),
        instrFunc8 [SqlValue.vblob hb, SqlValue.vtext nt]
          = (instr_utf8 hb nt 1).map mapResult ∧
        instrFunc8 [SqlValue.vtext hb, SqlValue.vblob nt]
          = (instr_utf8 hb nt 1).map mapResult ∧
        rinstrFunc8 fuel [SqlValue.vblob hb, SqlValue.vtext nt]
          = (rinstr_utf8 fuel hb nt RINSTR_DEFAULT_START).map mapResult ∧
        rinstrFunc8 fuel [SqlValue.vtext hb, SqlValue.vblob nt]
          = (rinstr_utf8 fuel hb nt RINSTR_DEFAULT_START).map mapResult) ∧
    (∀ r : Int, mapResult r ≠ AdapterResult.rErrConfused) ∧
    (∀ args, args.length < 2 → instrFunc8 args = some AdapterResult.rErrConfused) ∧
    (∀ (fuel : Nat) args, args.length < 2 →
        rinstrFunc8 fuel args = some AdapterResult.rErrConfused) := by
  refine ⟨fun hb nt fuel => ⟨rfl, rfl, rfl, rfl⟩, ?_, ?_, ?_⟩
  · intro r
    unfold mapResult
    split_ifs <;> simp
  · intro args hlt
    unfold instrFunc8
    rw [if_pos hlt]
  · intro fuel args hlt
    unfold rinstrFunc8
    rw [if_pos hlt]

/-- Witness for the amended C9 at concrete inputs. -/
theorem C9_amended_witness :
    instrFunc8 [] = some AdapterResult.rErrConfused ∧
    rinstrFunc8 10 [SqlValue.vnull] = some AdapterResult.rErrConfused ∧
    instrFunc8 [SqlValue.vblob [0x61], SqlValue.vtext [0x62]]
      = (instr_utf8 [0x61] [0x62] 1).map mapResult :=
  ⟨C9_amended.2.2.1 [] (by decide),
   C9_amended.2.2.2 10 [SqlValue.vnull] (by decide),
   (C9_amended.1 [0x61] [0x62] 10).1⟩

end SqliteInstr
